import Mathlib

/-!
# bagins: manifests and tag files

A shallow embedding of `manifest.go` and `tagfile.go` and the properties of
their parsing, serialisation and formatting functions.

Go strings are byte sequences: `len` counts bytes, `sort.Strings` compares
bytes, `strings.Split` and `filepath.Base` cut at bytes, and the three regular
expressions of the package only name ASCII bytes and complements of sets of
ASCII bytes, so that matching byte by byte and matching rune by rune select
the same substrings. A string is therefore a list of byte values.
-/

namespace Bagins

/-! ## Strings -/

/-- A Go string: its bytes, each given by its value. -/
abbrev GoString := List Nat

/-- Byte of an ASCII character literal. -/
def ch (c : Char) : Nat := c.toNat

/-- Bytes of an ASCII string literal. -/
def str (s : String) : GoString := s.toList.map Char.toNat

/-- Go's `strings.Split(s, sep)` for a one-byte separator: the pieces of `s`
between the occurrences of `sep`; never an empty slice. -/
def strings.Split (s : GoString) (sep : Nat) : List GoString :=
  match s with
  | [] => [[]]
  | c :: cs =>
    if c = sep then [] :: strings.Split cs sep
    else
      match strings.Split cs sep with
      | [] => [[c]]
      | w :: ws => (c :: w) :: ws

/-- Physical lines of a text: the pieces between line feeds. -/
def physLines (s : GoString) : List GoString := strings.Split s (ch '\n')

/-! ## Regular expressions

The fragment of Go's `regexp` syntax used by the package, with the
leftmost-first (backtracking priority) semantics of Go's default mode: a match
is searched at the leftmost start offset, and at that offset the greedy stars
prefer the longest repetition that lets the rest of the pattern match. -/

/-- Class `\s` of Go's regexp: `[\t\n\f\r ]`. -/
def isSpace (c : Nat) : Bool := c == 9 || c == 10 || c == 12 || c == 13 || c == 32

/-- Class `\S`: any byte outside `\s`. -/
def notSpace (c : Nat) : Bool := !isSpace c

/-- Class `.` (without the `s` flag): any byte but line feed. -/
def anyChar (c : Nat) : Bool := c != 10

/-- Regular expressions: `^`, `$`, a literal byte, a greedy star of a
one-byte class, concatenation and a numbered capture group. -/
inductive Regex where
  | bol : Regex
  | eol : Regex
  | lit : Nat → Regex
  | star : (Nat → Bool) → Regex
  | cat : Regex → Regex → Regex
  | group : Nat → Regex → Regex

/-- A position of the matcher in the text: the offset, the text from there on
and the groups captured so far. -/
structure MState where
  pos : Nat
  rest : GoString
  caps : List (Nat × GoString)

/-- All ways to cut a run of bytes of class `p` off the front of a text, the
longest run first (the order in which a greedy star tries them). -/
def spans (p : Nat → Bool) : GoString → List (GoString × GoString)
  | [] => [([], [])]
  | c :: cs =>
    if p c then (spans p cs).map (fun ab => (c :: ab.1, ab.2)) ++ [([], c :: cs)]
    else [([], c :: cs)]

/-- All the ways a regular expression matches at a position, in order of
priority; each result is the position after the match. -/
def Regex.run : Regex → MState → List MState
  | .bol, s => if s.pos = 0 then [s] else []
  | .eol, s => if s.rest = [] then [s] else []
  | .lit c, s =>
    match s.rest with
    | [] => []
    | d :: ds => if d = c then [{ s with pos := s.pos + 1, rest := ds }] else []
  | .star p, s =>
    (spans p s.rest).map (fun ab => { s with pos := s.pos + ab.1.length, rest := ab.2 })
  | .cat a b, s => (a.run s).flatMap (fun t => b.run t)
  | .group i a, s =>
    (a.run s).map (fun t => { t with caps := (i, s.rest.take (t.pos - s.pos)) :: t.caps })

/-- Number of capture groups of a regular expression. -/
def Regex.numSubexp : Regex → Nat
  | .cat a b => a.numSubexp + b.numSubexp
  | .group _ a => 1 + a.numSubexp
  | _ => 0

/-- Leftmost match: the preferred match at the first offset, from `pos` on,
at which the expression matches; the text matched and the end position. -/
def Regex.search (re : Regex) (pos : Nat) : GoString → Option (GoString × MState)
  | [] =>
    match re.run ⟨pos, [], []⟩ with
    | t :: _ => some ([], t)
    | [] => none
  | c :: cs =>
    match re.run ⟨pos, c :: cs, []⟩ with
    | t :: _ => some ((c :: cs).take (t.pos - pos), t)
    | [] => re.search (pos + 1) cs

/-- Text captured by group `i`, the empty string when the group took no part. -/
def capture (caps : List (Nat × GoString)) (i : Nat) : GoString :=
  match caps.find? (fun e => e.1 == i) with
  | some e => e.2
  | none => []

/-- Go's `re.MatchString(s)`. -/
def Regex.MatchString (re : Regex) (s : GoString) : Bool :=
  (re.search 0 s).isSome

/-- Go's `re.FindStringSubmatch(s)`: the leftmost match followed by the text
of each capture group, or the nil slice (here the empty list) without a
match. -/
def Regex.FindStringSubmatch (re : Regex) (s : GoString) : List GoString :=
  match re.search 0 s with
  | none => []
  | some (whole, t) => whole :: (List.range re.numSubexp).map (fun i => capture t.caps (i + 1))

/-! ## manifest.go -/

/-- Go's `filepath.Base` with `/` as separator: the last element of the path
after the trailing slashes are removed; `.` for the empty path and `/` for a
path of slashes only. -/
def filepath.Base (path : GoString) : GoString :=
  if path = [] then str "." else
  let path := (path.reverse.dropWhile (fun c => c == ch '/')).reverse
  let path := (path.reverse.takeWhile (fun c => c != ch '/')).reverse
  if path = [] then str "/" else path

/-- The pattern `(^.*\-)(.*)(\.txt$)` of `parseAlgoName`. -/
def algoNameRe : Regex :=
  .cat (.group 1 (.cat .bol (.cat (.star anyChar) (.lit (ch '-')))))
    (.cat (.group 2 (.star anyChar))
      (.group 3 (.cat (.lit (ch '.')) (.cat (.lit (ch 't')) (.cat (.lit (ch 'x'))
        (.cat (.lit (ch 't')) .eol))))))

deriving instance DecidableEq for Except

/-- The function `parseAlgoName`: the algorithm token of a manifest filename,
or the message of the error. -/
def parseAlgoName (name : GoString) : Except GoString GoString :=
  let filename := filepath.Base name
  let re := algoNameRe
  let matches_ := re.FindStringSubmatch filename
  if matches_.length < 2 then
    .error (str "Unable to determine algorithm from filename!")
  else
    let algo := matches_.getD 2 []
    .ok algo

/-- A Go `map[string]string`: entries with pairwise distinct keys. The order
of the list stands for the unspecified order in which `range` visits it. -/
structure GoMap where
  entries : List (GoString × GoString)
  nodup : (entries.map Prod.fst).Nodup

/-- The empty map, `make(map[string]string)`. -/
def GoMap.empty : GoMap := ⟨[], List.nodup_nil⟩

/-- The lookup `v, ok := m[k]`. -/
def GoMap.get? (m : GoMap) (k : GoString) : Option GoString :=
  (m.entries.find? (fun e => e.1 = k)).map Prod.snd

/-- The lookup `m[k]`, the empty string for an absent key. -/
def GoMap.get (m : GoMap) (k : GoString) : GoString :=
  (m.get? k).getD []

/-- The keys in the order `range` visits them. -/
def GoMap.keys (m : GoMap) : List GoString := m.entries.map Prod.fst

/-- The assignment `m[k] = v`. -/
def GoMap.set (m : GoMap) (k v : GoString) : GoMap :=
  ⟨(k, v) :: m.entries.filter (fun e => e.1 ≠ k), by
    have hsub : ((m.entries.filter (fun e => e.1 ≠ k)).map Prod.fst).Sublist
        (m.entries.map Prod.fst) := (List.filter_sublist _).map _
    rw [List.map_cons, List.nodup_cons]
    refine ⟨?_, m.nodup.sublist hsub⟩
    intro hk
    obtain ⟨e, he, hek⟩ := List.mem_map.1 hk
    have := (List.mem_filter.1 he).2
    simp [hek] at this⟩

/-- Two maps are the same mapping: every key is bound in both or in neither,
and to the same value. -/
def GoMap.Same (a b : GoMap) : Prop := ∀ k, a.get? k = b.get? k

/-- Number of entries, `len(m)`. -/
def GoMap.len (m : GoMap) : Nat := m.entries.length

/-- The manifest of `manifest.go`: its file name and its map from file path
to checksum (the hash function plays no part in parsing and writing). -/
structure Manifest where
  name : GoString
  Data : GoMap

/-- Go's `sort.Strings`: the strings in ascending order, compared byte by byte. -/
def sort.Strings (keys : List GoString) : List GoString :=
  keys.insertionSort (fun a b => a ≤ b)

/-- The bytes `Manifest.Write` sends to its writer: for each key in sorted
order the checksum, a space, the key and a line feed. -/
def Manifest.Write (m : Manifest) : GoString :=
  let keys := m.Data.keys
  let keys := sort.Strings keys
  keys.flatMap (fun key => m.Data.get key ++ str " " ++ key ++ str "\n")

/-- The method `Manifest.ToString`: what `Write` puts into a buffer. -/
def Manifest.ToString (m : Manifest) : GoString := m.Write

/-- Go's `bufio.MaxScanTokenSize`, the size the scanner's buffer grows to. -/
def MaxScanTokenSize : Nat := 64 * 1024

/-- The helper `dropCR` of `bufio.ScanLines`: drops one final carriage return. -/
def dropCR (data : GoString) : GoString :=
  if data.getLast? = some (ch '\r') then data.dropLast else data

/-- The lines `bufio.ScanLines` cuts a text into, before the carriage return
is dropped: the pieces ended by a line feed and a last piece ended by the end
of the text when it is not empty. -/
def rawLines : GoString → List GoString
  | [] => []
  | c :: cs =>
    if c = ch '\n' then [] :: rawLines cs
    else
      match rawLines cs with
      | [] => [[c]]
      | w :: ws => (c :: w) :: ws

/-- The tokens a `bufio.Scanner` with `ScanLines` delivers to a loop
`for scanner.Scan()`: a line together with its line feed has to fit the buffer
of `MaxScanTokenSize` bytes, and `Scan` returns false for good at the first
line that does not. -/
def scanLines (file : GoString) : List GoString :=
  ((rawLines file).takeWhile (fun l => l.length < MaxScanTokenSize)).map dropCR

/-- The pattern `^(\S*)\s*(.*)` of `parseManifestData`. -/
def manifestLineRe : Regex :=
  .cat .bol (.cat (.group 1 (.star notSpace)) (.cat (.star isSpace) (.group 2 (.star anyChar))))

/-- The function `parseManifestData`: the map read from the lines of the file
and the messages of the errors, one line at a time. -/
def parseManifestData (file : GoString) : GoMap × List GoString :=
  let re := manifestLineRe
  (scanLines file).foldl (fun acc line =>
    if re.MatchString line then
      let data := re.FindStringSubmatch line
      (acc.1.set (data.getD 2 []) (data.getD 1 []), acc.2)
    else
      (acc.1, acc.2 ++ [str "Unable to parse data from line: " ++ line]))
    (GoMap.empty, [])

/-- The exported `ParseManifestData`. -/
def ParseManifestData (file : GoString) : GoMap × List GoString :=
  parseManifestData file

/-! ## tagfile.go -/

/-- One round of the loop `for word := range words` of `FormatField` on the
buffer and `splitCounter`: the break is written, and the counter set to its
length, when `splitCounter+len(words[word]) > 79`; then the word is written
after a space and its length with the space is added to the counter. -/
def formatStep (st : GoString × Nat) (word : GoString) : GoString × Nat :=
  let delimeter := str "\n   "
  let st := if st.2 + word.length > 79 then (st.1 ++ delimeter, delimeter.length) else st
  let written := str " " ++ word
  (st.1 ++ written, st.2 + written.length)

/-- The function `FormatField`: the buffer after the key and the words of the
data are written, `splitCounter` running along as second component. -/
def FormatField (key data : GoString) : GoString :=
  let buff := key ++ str ": "
  let splitCounter := (key ++ str ": ").length
  let words := strings.Split data (ch ' ')
  (words.foldl formatStep (buff, splitCounter)).1


/-! ## The path and the environment of a manifest -/

/-- Go's `strings.Contains(s, substr)`. -/
def strings.Contains (s substr : GoString) : Bool :=
  s.tails.any (fun t => substr.isPrefixOf t)

/-- Go's `strings.ToLower` on ASCII text, which the names of hash algorithms
are: the letters `A` to `Z` become `a` to `z`, every other byte is kept. -/
def strings.ToLower (s : GoString) : GoString :=
  s.map (fun c => if 65 ≤ c ∧ c ≤ 90 then c + 32 else c)

/-- Go's `strings.Join(elems, sep)`. -/
def strings.Join (elems : List GoString) (sep : GoString) : GoString :=
  match elems with
  | [] => []
  | [e] => e
  | e :: es => e ++ sep ++ strings.Join es sep

/-- The elements `filepath.Clean` keeps, the latest one first in `acc`: empty
elements and `.` are dropped, `..` removes the element before it, or is kept at
the start of a path that is not rooted and dropped at the root. -/
def cleanElems (rooted : Bool) : List GoString → List GoString → List GoString
  | acc, [] => acc.reverse
  | acc, e :: es =>
    if e = [] ∨ e = str "." then cleanElems rooted acc es
    else if e = str ".." then
      match acc with
      | [] => if rooted then cleanElems rooted [] es else cleanElems rooted [e] es
      | top :: below =>
        if top = str ".." then cleanElems rooted (e :: top :: below) es
        else cleanElems rooted below es
    else cleanElems rooted (e :: acc) es

/-- Go's `filepath.Clean` with `/` as separator: the shortest path name
equivalent to `path` by the four lexical rules of its documentation; `.` for
the empty result. -/
def filepath.Clean (path : GoString) : GoString :=
  if path = [] then str "." else
  let rooted := path.head? = some (ch '/')
  let elems := cleanElems rooted [] (strings.Split path (ch '/'))
  let out := (if rooted then str "/" else []) ++ strings.Join elems (str "/")
  if out = [] then str "." else out

/-- Go's `filepath.Dir` with `/` as separator: all but the last element of the
path, cleaned. -/
def filepath.Dir (path : GoString) : GoString :=
  filepath.Clean (path.reverse.dropWhile (fun c => c != ch '/')).reverse

/-- Go's `filepath.Join`: the elements from the first non-empty one on, joined
by `/` and cleaned; the empty string when all are empty. -/
def filepath.Join (elem : List GoString) : GoString :=
  match elem.dropWhile (fun e => e = []) with
  | [] => []
  | es => filepath.Clean (strings.Join es (str "/"))

/-- Go's `path.Base`, `path.Dir` and `path.Clean` follow the same rules as
their namesakes of `filepath` with `/` as separator. -/
def path.Base (name : GoString) : GoString := filepath.Base name

/-- Go's `path.Dir`. -/
def path.Dir (name : GoString) : GoString := filepath.Dir name

/-- Go's `path.Clean`. -/
def path.Clean (name : GoString) : GoString := filepath.Clean name

/-- What `os.Stat` answers for a path: the file is there, it is not
(an error for which `os.IsNotExist` holds), or another error. -/
inductive StatResult where
  | ok : StatResult
  | notExist : GoString → StatResult
  | failed : GoString → StatResult
  deriving DecidableEq

/-- A file system for the examples: of all paths only `/tmp` is there. -/
def onlyTmp (p : GoString) : StatResult :=
  if p = str "/tmp" then .ok else .notExist (str "no such file or directory")

/-- A file system for the examples in which every path is there. -/
def allThere (_ : GoString) : StatResult := .ok

/-- A hash registry for the examples: it knows `md5`, `sha1`, `sha256` and
`sha512` in any case of the letters, and stands for its hash functions by
their names. -/
def fourHashes (name : GoString) : Except GoString GoString :=
  if strings.ToLower name ∈ [str "md5", str "sha1", str "sha256", str "sha512"] then
    .ok (strings.ToLower name)
  else .error (str "Unsupported hash value: " ++ name)

/-- The method `Manifest.Name`. -/
def Manifest.Name (m : Manifest) : GoString := filepath.Clean m.name

/-- The function `NewManifest`, with `os.Stat` and `bagutil.LookupHash` of the
environment as `Stat` and `LookupHash`; the hash function that is looked up is
kept out of the manifest of this model. -/
def NewManifest {H : Type} (Stat : GoString → StatResult)
    (LookupHash : GoString → Except GoString H) (pth hashName : GoString) :
    Except GoString Manifest :=
  match Stat (filepath.Dir pth) with
  | .notExist _ => .error (str "Unable to create manifest. Path does not exist: " ++ pth)
  | .failed err => .error (str "Unexpected error creating manifest: " ++ err)
  | .ok =>
    match LookupHash hashName with
    | .error err => .error err
    | .ok _ =>
      let name :=
        if filepath.Dir pth ≠ [] ∧ strings.Contains pth (str "manifest-") then pth
        else filepath.Join [pth, str "manifest-" ++ strings.ToLower hashName ++ str ".txt"]
      .ok ⟨name, GoMap.empty⟩

/-- The function `ReadManifest`, with `os.Open` and the reading of the file as
`Open`: the manifest, or none for nil, and the errors. -/
def ReadManifest {H : Type} (Stat : GoString → StatResult)
    (LookupHash : GoString → Except GoString H) (Open : GoString → Except GoString GoString)
    (name : GoString) : Option Manifest × List GoString :=
  let errs : List GoString := []
  match parseAlgoName name with
  | .error err => (none, errs ++ [err])
  | .ok hashName =>
    match Open name with
    | .error err => (none, errs ++ [err])
    | .ok file =>
      let parsed := parseManifestData file
      let errs := errs ++ parsed.2
      match NewManifest Stat LookupHash name hashName with
      | .error err => (none, errs ++ [err])
      | .ok m => (some { m with Data := parsed.1 }, errs)

/-- The message of the error of `RunChecksums` for a checksum that does not
match: `"File checksum %s is not valid for %s:%s"`. -/
def checksumError (sum key fileChecksum : GoString) : GoString :=
  str "File checksum " ++ sum ++ str " is not valid for " ++ key ++ str ":" ++ fileChecksum

/-- The method `Manifest.RunChecksums`, with `bagutil.FileChecksum` for the
hash function of the manifest as `FileChecksum`: the digest of the file at a
path and the error of reading it, if any. -/
def Manifest.RunChecksums (FileChecksum : GoString → GoString × Option GoString)
    (m : Manifest) : List GoString :=
  m.Data.entries.foldl (fun invalidSums e =>
    let pth := filepath.Join [filepath.Dir m.name, e.1]
    let r := FileChecksum pth
    let invalidSums :=
      if e.2 ≠ r.1 then invalidSums ++ [checksumError e.2 e.1 r.1] else invalidSums
    match r.2 with
    | some err => invalidSums ++ [err]
    | none => invalidSums) []

/-- The tag file of `tagfile.go`. -/
structure TagFile where
  name : GoString
  Data : GoMap

/-- The pattern `.*\.txt` of `NewTagFile`. -/
def tagFileRe : Regex :=
  .cat (.star anyChar) (.cat (.lit (ch '.')) (.cat (.lit (ch 't')) (.cat (.lit (ch 'x'))
    (.lit (ch 't')))))

/-- The function `NewTagFile`: the tag file and the error, none for nil. -/
def NewTagFile (Stat : GoString → StatResult) (name : GoString) : TagFile × Option GoString :=
  let err : Option GoString :=
    match Stat (path.Dir name) with
    | .ok => none
    | .notExist e => some e
    | .failed e => some e
  let re := tagFileRe
  let err :=
    if !re.MatchString (path.Base name) then
      some (str "Tagfiles must end in .txt and contain at least 1 letter.  Provided: " ++
        path.Base name)
    else err
  (⟨path.Clean name, GoMap.empty⟩, err)

/-! ## Predicates of the proofs -/

/-- The text without its breaks: every line feed followed by three spaces is
deleted. -/
def removeBreaks : GoString → GoString
  | 10 :: 32 :: 32 :: 32 :: rest => removeBreaks rest
  | c :: rest => c :: removeBreaks rest
  | [] => []

/-- What the loop of `FormatField` writes after the buffer for the words still
to come, from the value of `splitCounter` on. -/
def formatBody (splitCounter : Nat) : List GoString → GoString
  | [] => []
  | w :: ws =>
    if splitCounter + w.length > 79 then
      [10, 32, 32, 32] ++ 32 :: w ++ formatBody (4 + (1 + w.length)) ws
    else 32 :: w ++ formatBody (splitCounter + (1 + w.length)) ws

/-- The checksum `^(\S*)\s*(.*)` reads off a line: its bytes before the first
whitespace. -/
def lineChecksum (line : GoString) : GoString := line.takeWhile notSpace

/-- The path `^(\S*)\s*(.*)` reads off a line: what follows the whitespace
after the checksum, up to a line feed. -/
def linePath (line : GoString) : GoString :=
  ((line.dropWhile notSpace).dropWhile isSpace).takeWhile anyChar

/-- The map `parseManifestData` builds from the lines of a file. -/
def parseLines (lines : List GoString) : GoMap :=
  lines.foldl (fun m line => m.set (linePath line) (lineChecksum line)) GoMap.empty

/-- A line of a manifest file in the shape the format asks for: a checksum,
a separator and a path. -/
structure Record where
  checksum : GoString
  sep : GoString
  path : GoString

/-- The line of a record. -/
def Record.line (r : Record) : GoString := r.checksum ++ r.sep ++ r.path

/-- The text of a list of lines, each ended by a line feed. -/
def unlines (ls : List GoString) : GoString := ls.flatMap (fun l => l ++ str "\n")

/-- A record the parser reads back: no whitespace in the checksum, a separator
of whitespace other than line feed, a path without line feed that does not
begin with whitespace, and a line that the scanner returns unchanged. -/
def Record.Readable (r : Record) : Prop :=
  (∀ c ∈ r.checksum, isSpace c = false) ∧ r.sep ≠ [] ∧ (∀ c ∈ r.sep, isSpace c = true ∧ c ≠ 10) ∧
    (∀ c ∈ r.path.head?, isSpace c = false) ∧ 10 ∉ r.path ∧ r.line.getLast? ≠ some 13 ∧
    r.line.length < MaxScanTokenSize

/-- The map of a list of bindings, assigned in turn. -/
def GoMap.ofList (kvs : List (GoString × GoString)) : GoMap :=
  kvs.foldl (fun m kv => m.set kv.1 kv.2) GoMap.empty

/-- A first line followed by continuation lines, the latest one first, each
after a line feed. -/
def render (first : GoString) : List GoString → GoString
  | [] => first
  | l :: r => render first r ++ 10 :: l

/-- A continuation line of `FormatField`: free of line feeds, begun by the
three spaces of the break and the space before its first word, and within 79
bytes unless it holds a single word of `W`. -/
def ContLine (W : List GoString) (l : GoString) : Prop :=
  10 ∉ l ∧ str "    " <+: l ∧ (l.length ≤ 79 ∨ ∃ w ∈ W, l = str "    " ++ w)

/-- The state of the loop of `FormatField`: the buffer holds a first line and
continuation lines, and the counter is the length of the line being written,
plus one on a continuation line. -/
def FormatInv (W : List GoString) (st : GoString × Nat) (first : GoString)
    (cr : List GoString) : Prop :=
  st.1 = render first cr ∧ st.2 = (match cr with | [] => first.length | l :: _ => l.length + 1) ∧
    10 ∉ first ∧ ∀ l ∈ cr, ContLine W l

/-! ## Greedy stars and backtracking -/

theorem mem_spans (p : Nat → Bool) (s : GoString) (ab : GoString × GoString) :
    ab ∈ spans p s ↔ ab.1 ++ ab.2 = s ∧ ∀ c ∈ ab.1, p c = true := by
  induction s generalizing ab with
  | nil =>
    obtain ⟨a, b⟩ := ab
    simp [spans]
    rintro rfl - c hc
    simp at hc
  | cons c cs ih =>
    obtain ⟨a, b⟩ := ab
    by_cases hp : p c = true
    · simp only [spans, hp, if_true, List.mem_append, List.mem_map, List.mem_singleton]
      constructor
      · rintro (⟨xy, hxy, heq⟩ | heq)
        · obtain ⟨h1, h2⟩ := (ih xy).1 hxy
          simp only [Prod.mk.injEq] at heq
          obtain ⟨rfl, rfl⟩ := heq
          refine ⟨by simp [h1], ?_⟩
          intro d hd
          rcases List.mem_cons.1 hd with rfl | hd
          · exact hp
          · exact h2 d hd
        · have e1 : a = [] := congrArg Prod.fst heq
          have e2 : b = c :: cs := congrArg Prod.snd heq
          rw [e1, e2]
          simp
      · rintro ⟨h1, h2⟩
        cases a with
        | nil => right; simp at h1; simp [h1]
        | cons d a =>
          left
          simp only [List.cons_append, List.cons.injEq] at h1
          obtain ⟨rfl, h1⟩ := h1
          exact ⟨(a, b), (ih (a, b)).2 ⟨h1, fun x hx => h2 x (List.mem_cons_of_mem _ hx)⟩, rfl⟩
    · rw [spans, if_neg hp, List.mem_singleton]
      constructor
      · intro heq
        have e1 : a = [] := congrArg Prod.fst heq
        have e2 : b = c :: cs := congrArg Prod.snd heq
        rw [e1, e2]
        simp
      · rintro ⟨h1, h2⟩
        cases a with
        | nil => simp at h1; simp [h1]
        | cons d a =>
          simp only [List.cons_append, List.cons.injEq] at h1
          obtain ⟨rfl, h1⟩ := h1
          exact absurd (h2 d (List.mem_cons_self _ _)) hp

/-- The splits a greedy star tries end with the empty run, and all the others
take at least one byte. -/
theorem spans_last (p : Nat → Bool) (s : GoString) :
    ∃ l, spans p s = l ++ [([], s)] ∧ ∀ xy ∈ l, xy.1 ≠ [] := by
  cases s with
  | nil => exact ⟨[], by simp [spans]⟩
  | cons c cs =>
    by_cases hp : p c = true
    · refine ⟨(spans p cs).map (fun ab => (c :: ab.1, ab.2)), by simp [spans, hp], ?_⟩
      intro xy hxy
      obtain ⟨ab, _, rfl⟩ := List.mem_map.1 hxy
      simp
    · exact ⟨[], by simp [spans, hp]⟩

/-- A run of bytes of the class is tried only after every longer run. -/
theorem spans_append (p : Nat → Bool) (a b : GoString) (ha : ∀ c ∈ a, p c = true) :
    ∃ l, spans p (a ++ b) = (spans p b).map (fun xy => (a ++ xy.1, xy.2)) ++ l := by
  induction a with
  | nil => exact ⟨[], by simp⟩
  | cons c a ih =>
    obtain ⟨l, hl⟩ := ih (fun x hx => ha x (List.mem_cons_of_mem _ hx))
    have hc : p c = true := ha c (List.mem_cons_self _ _)
    refine ⟨l.map (fun ab => (c :: ab.1, ab.2)) ++ [([], c :: (a ++ b))], ?_⟩
    simp [spans, hc, hl, List.map_append, Function.comp_def]

/-- The first split a greedy star tries takes the longest run. -/
theorem spans_head (p : Nat → Bool) (s : GoString) :
    ∃ l, spans p s = (s.takeWhile p, s.dropWhile p) :: l := by
  induction s with
  | nil => exact ⟨[], by simp [spans]⟩
  | cons c cs ih =>
    obtain ⟨l, hl⟩ := ih
    by_cases hp : p c = true
    · exact ⟨l.map (fun ab => (c :: ab.1, ab.2)) ++ [([], c :: cs)], by
        simp [spans, hp, hl, List.takeWhile_cons, List.dropWhile_cons]⟩
    · exact ⟨[], by simp [spans, hp, List.takeWhile_cons, List.dropWhile_cons]⟩

/-- Backtracking of a greedy star: when what follows the star fails after
every run longer than `a`, the results after `a` come first. -/
theorem spans_flatMap {β : Type} (p : Nat → Bool) (a b : GoString)
    (F : GoString × GoString → List β) (ha : ∀ c ∈ a, p c = true)
    (hfail : ∀ x y, x ≠ [] → x ++ y = b → (∀ c ∈ x, p c = true) → F (a ++ x, y) = []) :
    ∃ l, (spans p (a ++ b)).flatMap F = F (a, b) ++ l := by
  obtain ⟨l1, h1⟩ := spans_append p a b ha
  obtain ⟨l2, h2, h3⟩ := spans_last p b
  have hmem : ∀ xy ∈ l2, xy ∈ spans p b := fun xy hxy => by
    rw [h2]; exact List.mem_append_left _ hxy
  have hnil : (l2.map (fun xy => (a ++ xy.1, xy.2))).flatMap F = [] := by
    rw [List.flatMap_eq_nil_iff]
    intro z hz
    obtain ⟨xy, hxy, rfl⟩ := List.mem_map.1 hz
    obtain ⟨e1, e2⟩ := (mem_spans p b xy).1 (hmem xy hxy)
    exact hfail xy.1 xy.2 (h3 xy hxy) e1 e2
  refine ⟨l1.flatMap F, ?_⟩
  rw [h1, h2, List.map_append, List.flatMap_append, List.flatMap_append, hnil]
  simp


/-- A greedy star followed by `K`: the results of `K` after the run `a` come
first when `K` fails after every longer run. -/
theorem star_cat_run (p : Nat → Bool) (K : Regex) (s : MState) (a b : GoString)
    (hs : s.rest = a ++ b) (ha : ∀ c ∈ a, p c = true)
    (hfail : ∀ x y, x ≠ [] → x ++ y = b → (∀ c ∈ x, p c = true) →
      K.run { s with pos := s.pos + (a ++ x).length, rest := y } = []) :
    ∃ l, (Regex.cat (.star p) K).run s =
      K.run { s with pos := s.pos + a.length, rest := b } ++ l := by
  obtain ⟨l, hl⟩ := spans_flatMap p a b
    (fun ab => K.run { s with pos := s.pos + ab.1.length, rest := ab.2 }) ha hfail
  refine ⟨l, ?_⟩
  rw [← hl, ← hs]
  simp only [Regex.run, List.flatMap_map]

/-- A captured greedy star followed by `K`. -/
theorem group_star_cat_run (i : Nat) (p : Nat → Bool) (K : Regex) (s : MState) (a b : GoString)
    (hs : s.rest = a ++ b) (ha : ∀ c ∈ a, p c = true)
    (hfail : ∀ x y, x ≠ [] → x ++ y = b → (∀ c ∈ x, p c = true) →
      K.run { pos := s.pos + (a ++ x).length, rest := y, caps := (i, a ++ x) :: s.caps } = []) :
    ∃ l, (Regex.cat (.group i (.star p)) K).run s =
      K.run { pos := s.pos + a.length, rest := b, caps := (i, a) :: s.caps } ++ l := by
  obtain ⟨l, hl⟩ := spans_flatMap p a b
    (fun ab => K.run { pos := s.pos + ab.1.length, rest := ab.2, caps := (i, ab.1) :: s.caps })
    ha hfail
  refine ⟨l, ?_⟩
  rw [← hl, ← hs]
  simp only [Regex.run, List.flatMap_map, List.map_map]
  refine List.flatMap_congr ?_
  intro ab hab
  obtain ⟨e1, -⟩ := (mem_spans p s.rest ab).1 hab
  simp [← e1]

theorem ch_minus : ch '-' = 45 := by decide
theorem str_txt : str ".txt" = [46, 116, 120, 116] := by decide

/-- The literal tail `\.txt$` matches exactly the text `.txt`. -/
theorem txtTail_run (s : MState) :
    (Regex.cat (.lit (ch '.')) (.cat (.lit (ch 't')) (.cat (.lit (ch 'x'))
        (.cat (.lit (ch 't')) .eol)))).run s =
      if s.rest = str ".txt" then [{ s with pos := s.pos + 4, rest := [] }] else [] := by
  have h1 : ch '.' = 46 := by decide
  have h2 : ch 't' = 116 := by decide
  have h3 : ch 'x' = 120 := by decide
  obtain ⟨pos, rest, caps⟩ := s
  rw [h1, h2, h3, str_txt]
  rcases rest with _ | ⟨c1, _ | ⟨c2, _ | ⟨c3, _ | ⟨c4, _ | ⟨c5, r⟩⟩⟩⟩⟩ <;>
    (simp [Regex.run]; try split_ifs) <;> simp_all

/-- The preferred match of `(^.*\-)(.*)(\.txt$)` on a one-line name
`pre-token.txt` whose token has no hyphen. -/
theorem algoNameRe_run (pre token : GoString) (hpre : ∀ c ∈ pre, c ≠ 10)
    (htok : ∀ c ∈ token, c ≠ 10 ∧ c ≠ 45) :
    ∃ l, algoNameRe.run ⟨0, pre ++ 45 :: (token ++ str ".txt"), []⟩ =
      ⟨pre.length + 1 + token.length + 4, [],
        [(3, str ".txt"), (2, token), (1, pre ++ [45])]⟩ :: l := by
  -- the first group
  have hX : ∃ l, (Regex.cat (.star anyChar) (.lit (ch '-'))).run
      ⟨0, pre ++ 45 :: (token ++ str ".txt"), []⟩ =
        ⟨pre.length + 1, token ++ str ".txt", []⟩ :: l := by
    obtain ⟨l, hl⟩ := star_cat_run anyChar (.lit (ch '-'))
      ⟨0, pre ++ 45 :: (token ++ str ".txt"), []⟩ pre (45 :: (token ++ str ".txt")) rfl
      (fun c hc => by simpa [anyChar] using hpre c hc)
      (by
        intro x y hx hxy _
        cases x with
        | nil => exact absurd rfl hx
        | cons d x =>
          simp only [List.cons_append, List.cons.injEq] at hxy
          obtain ⟨-, hxy⟩ := hxy
          cases y with
          | nil => simp [Regex.run]
          | cons e y =>
            have he : e ∈ token ++ str ".txt" := by rw [← hxy]; simp
            have he45 : e ≠ 45 := by
              rcases List.mem_append.1 he with h | h
              · exact (htok e h).2
              · rw [str_txt] at h; simp at h; omega
            simp [Regex.run, ch_minus, he45])
    exact ⟨l, by rw [hl]; simp [Regex.run, ch_minus]⟩
  -- the second and third group
  have hR : ∀ caps, ∃ l, (Regex.cat (.group 2 (.star anyChar))
      (.group 3 (.cat (.lit (ch '.')) (.cat (.lit (ch 't')) (.cat (.lit (ch 'x'))
        (.cat (.lit (ch 't')) .eol)))))).run ⟨pre.length + 1, token ++ str ".txt", caps⟩ =
        ⟨pre.length + 1 + token.length + 4, [], (3, str ".txt") :: (2, token) :: caps⟩ :: l := by
    intro caps
    obtain ⟨l, hl⟩ := group_star_cat_run 2 anyChar
      (.group 3 (.cat (.lit (ch '.')) (.cat (.lit (ch 't')) (.cat (.lit (ch 'x'))
        (.cat (.lit (ch 't')) .eol)))))
      ⟨pre.length + 1, token ++ str ".txt", caps⟩ token (str ".txt") rfl
      (fun c hc => by simpa [anyChar] using (htok c hc).1)
      (by
        intro x y hx hxy _
        have hy : y ≠ str ".txt" := by
          intro h
          rw [h] at hxy
          exact hx (List.append_left_eq_self.1 hxy)
        rw [Regex.run, txtTail_run]
        simp [hy])
    refine ⟨l, ?_⟩
    rw [hl, Regex.run, txtTail_run]
    simp [str_txt]
  obtain ⟨l1, h1⟩ := hX
  obtain ⟨l2, h2⟩ := hR [(1, pre ++ [45])]
  have e1 : algoNameRe.run ⟨0, pre ++ 45 :: (token ++ str ".txt"), []⟩ =
      ((([(⟨0, pre ++ 45 :: (token ++ str ".txt"), []⟩ : MState)].flatMap
        (fun t => (Regex.cat (.star anyChar) (.lit (ch '-'))).run t)).map
        (fun t => { t with caps := (1, (pre ++ 45 :: (token ++ str ".txt")).take (t.pos - 0))
                      :: t.caps })).flatMap
        (fun t => (Regex.cat (.group 2 (.star anyChar))
          (.group 3 (.cat (.lit (ch '.')) (.cat (.lit (ch 't')) (.cat (.lit (ch 'x'))
            (.cat (.lit (ch 't')) .eol)))))).run t)) := rfl
  have e2 : (pre ++ 45 :: (token ++ str ".txt")).take (pre.length + 1) = pre ++ [45] := by
    have : pre ++ 45 :: (token ++ str ".txt") = (pre ++ [45]) ++ (token ++ str ".txt") := by simp
    rw [this, List.take_left']
    simp
  rw [e1]
  simp only [List.flatMap_cons, List.flatMap_nil, List.append_nil, h1, List.map_cons,
    Nat.sub_zero, e2, h2]
  exact ⟨_, rfl⟩

theorem mem_cat_run (a b : Regex) (s t : MState) :
    t ∈ (Regex.cat a b).run s ↔ ∃ u, u ∈ a.run s ∧ t ∈ b.run u := by
  rw [Regex.run, List.mem_flatMap]

theorem mem_group_run (i : Nat) (a : Regex) (s t : MState) :
    t ∈ (Regex.group i a).run s ↔
      ∃ u, u ∈ a.run s ∧ { u with caps := (i, s.rest.take (u.pos - s.pos)) :: u.caps } = t := by
  rw [Regex.run, List.mem_map]

theorem mem_star_run (p : Nat → Bool) (s t : MState) :
    t ∈ (Regex.star p).run s ↔
      ∃ ab, ab ∈ spans p s.rest ∧ { s with pos := s.pos + ab.1.length, rest := ab.2 } = t := by
  rw [Regex.run, List.mem_map]

theorem mem_lit_run (c : Nat) (s t : MState) (h : t ∈ (Regex.lit c).run s) :
    s.rest = c :: t.rest := by
  obtain ⟨pos, rest, caps⟩ := s
  cases rest with
  | nil => simp [Regex.run] at h
  | cons d ds =>
    by_cases hd : d = c
    · simp [Regex.run, hd] at h
      simp [h, hd]
    · simp [Regex.run, hd] at h

theorem mem_bol_run (s t : MState) (h : t ∈ Regex.bol.run s) : t = s ∧ s.pos = 0 := by
  rw [Regex.run] at h
  split_ifs at h with h0
  · exact ⟨by simpa using h, h0⟩
  · simp at h

/-- Every match of `(^.*\-)(.*)(\.txt$)` is a match of a text with a hyphen
that ends in `.txt`. -/
theorem algoNameRe_sound (s t : MState) (h : t ∈ algoNameRe.run s) :
    ∃ a b, s.rest = a ++ 45 :: (b ++ str ".txt") := by
  rw [algoNameRe, mem_cat_run] at h
  obtain ⟨u1, hu1, h⟩ := h
  rw [mem_group_run] at hu1
  obtain ⟨u2, hu2, rfl⟩ := hu1
  rw [mem_cat_run] at hu2
  obtain ⟨u3, hu3, hu2⟩ := hu2
  obtain ⟨rfl, -⟩ := mem_bol_run _ _ hu3
  rw [mem_cat_run] at hu2
  obtain ⟨u4, hu4, hu2⟩ := hu2
  rw [mem_star_run] at hu4
  obtain ⟨ab, hab, rfl⟩ := hu4
  obtain ⟨e1, -⟩ := (mem_spans _ _ _).1 hab
  have e4 := mem_lit_run _ _ _ hu2
  rw [mem_cat_run] at h
  obtain ⟨u5, hu5, h⟩ := h
  rw [mem_group_run] at hu5
  obtain ⟨u6, hu6, rfl⟩ := hu5
  rw [mem_star_run] at hu6
  obtain ⟨cd, hcd, rfl⟩ := hu6
  obtain ⟨e5, -⟩ := (mem_spans _ _ _).1 hcd
  rw [mem_group_run, txtTail_run] at h
  obtain ⟨u7, hu7, -⟩ := h
  split_ifs at hu7 with e6
  · simp only at e4 e5 e6
    refine ⟨ab.1, cd.1, ?_⟩
    rw [← e1, e4, ← e5, e6, ch_minus]
  · simp at hu7

/-- The search for a match finds the preferred match at the first offset. -/
theorem search_of_run (re : Regex) (pos : Nat) (s : GoString) (t : MState) (l : List MState)
    (h : re.run ⟨pos, s, []⟩ = t :: l) :
    re.search pos s = some (s.take (t.pos - pos), t) := by
  cases s with
  | nil => simp [Regex.search, h]
  | cons c cs => simp [Regex.search, h]

/-- The search fails when the expression matches at no offset. -/
theorem search_none (re : Regex) (pos : Nat) (s : GoString)
    (h : ∀ pos1 s1, s1 <:+ s → re.run ⟨pos1, s1, []⟩ = []) :
    re.search pos s = none := by
  induction s generalizing pos with
  | nil => simp [Regex.search, h pos [] (List.suffix_refl _)]
  | cons c cs ih =>
    rw [Regex.search, h pos (c :: cs) (List.suffix_refl _)]
    exact ih (pos + 1) (fun pos1 s1 hs => h pos1 s1 (hs.trans (List.suffix_cons c cs)))

/-! ## Lines and the loop of the field formatter -/

theorem formatField_eq (key data : GoString) :
    FormatField key data =
      ((strings.Split data (ch ' ')).foldl formatStep (key ++ str ": ", (key ++ str ": ").length)).1 :=
  rfl

theorem split_ne_nil (s : GoString) (sep : Nat) : ∃ w ws, strings.Split s sep = w :: ws := by
  induction s with
  | nil => exact ⟨[], [], rfl⟩
  | cons c cs ih =>
    obtain ⟨w, ws, h⟩ := ih
    by_cases hc : c = sep
    · exact ⟨[], w :: ws, by simp [strings.Split, hc, h]⟩
    · exact ⟨c :: w, ws, by simp [strings.Split, hc, h]⟩

theorem split_of_not_mem (s : GoString) (sep : Nat) (h : sep ∉ s) : strings.Split s sep = [s] := by
  induction s with
  | nil => rfl
  | cons c cs ih =>
    have hc : c ≠ sep := fun e => h (by simp [e])
    have hcs : sep ∉ cs := fun e => h (List.mem_cons_of_mem _ e)
    simp [strings.Split, hc, ih hcs]

theorem split_append_sep (a b : GoString) (sep : Nat) (h : sep ∉ b) :
    strings.Split (a ++ sep :: b) sep = strings.Split a sep ++ [b] := by
  induction a with
  | nil => simp [strings.Split, split_of_not_mem b sep h]
  | cons c a ih =>
    by_cases hc : c = sep
    · simp [strings.Split, hc, ih]
    · obtain ⟨w, ws, hw⟩ := split_ne_nil a sep
      simp [strings.Split, hc, ih, hw]

/-- The pieces of a split are made of bytes of the text, none of them the separator. -/
theorem mem_split (s : GoString) (sep : Nat) (w : GoString) (hw : w ∈ strings.Split s sep) :
    sep ∉ w ∧ ∀ c ∈ w, c ∈ s := by
  induction s generalizing w with
  | nil =>
    simp [strings.Split] at hw
    simp [hw]
  | cons c cs ih =>
    by_cases hc : c = sep
    · simp only [strings.Split, hc, if_true, List.mem_cons] at hw
      rcases hw with rfl | hw
      · simp
      · obtain ⟨h1, h2⟩ := ih w hw
        exact ⟨h1, fun x hx => List.mem_cons_of_mem _ (h2 x hx)⟩
    · obtain ⟨v, vs, hv⟩ := split_ne_nil cs sep
      simp only [strings.Split, hc, if_false, hv, List.mem_cons] at hw
      rcases hw with rfl | hw
      · obtain ⟨h1, h2⟩ := ih v (by simp [hv])
        refine ⟨?_, ?_⟩
        · intro hm
          rcases List.mem_cons.1 hm with e | hm
          · exact hc e.symm
          · exact h1 hm
        · intro x hx
          rcases List.mem_cons.1 hx with e | hx
          · simp [e]
          · exact List.mem_cons_of_mem _ (h2 x hx)
      · obtain ⟨h1, h2⟩ := ih w (by simp [hv, hw])
        exact ⟨h1, fun x hx => List.mem_cons_of_mem _ (h2 x hx)⟩

theorem physLines_render (first : GoString) (cr : List GoString) (hf : 10 ∉ first)
    (hc : ∀ l ∈ cr, 10 ∉ l) : physLines (render first cr) = first :: cr.reverse := by
  have h10 : ch '\n' = 10 := by decide
  induction cr with
  | nil => simp [physLines, render, h10, split_of_not_mem first 10 hf]
  | cons l r ih =>
    have := ih (fun x hx => hc x (List.mem_cons_of_mem _ hx))
    rw [physLines, h10] at this ⊢
    rw [render, split_append_sep _ _ _ (hc l (List.mem_cons_self _ _)), this]
    simp

theorem formatStep_break (st : GoString × Nat) (w : GoString) (hb : st.2 + w.length > 79) :
    formatStep st w = (st.1 ++ [10, 32, 32, 32] ++ 32 :: w, 4 + (1 + w.length)) := by
  have hsp : str " " = [32] := by decide
  have hd : str "\n   " = [10, 32, 32, 32] := by decide
  simp [formatStep, hb, hsp, hd]
  omega

theorem formatStep_keep (st : GoString × Nat) (w : GoString) (hb : ¬ st.2 + w.length > 79) :
    formatStep st w = (st.1 ++ 32 :: w, st.2 + (1 + w.length)) := by
  have hsp : str " " = [32] := by decide
  rw [formatStep, if_neg hb, hsp]
  simp
  omega

theorem formatStep_inv (W : List GoString) (st : GoString × Nat) (first : GoString)
    (cr : List GoString) (w : GoString) (hw : w ∈ W) (hnl : 10 ∉ w)
    (h : FormatInv W st first cr) :
    ∃ first1 cr1, FormatInv W (formatStep st w) first1 cr1 := by
  obtain ⟨h1, h2, h3, h4⟩ := h
  have h4s : str "    " = [32, 32, 32, 32] := by decide
  by_cases hb : st.2 + w.length > 79
  · -- a break: a new continuation line with the single word `w`
    rw [formatStep_break st w hb]
    refine ⟨first, (str "    " ++ w) :: cr, ?_, ?_, h3, ?_⟩
    · simp [h1, render, h4s]
    · simp [h4s]; omega
    · intro l hl
      rcases List.mem_cons.1 hl with rfl | hl
      · refine ⟨?_, List.prefix_append _ _, Or.inr ⟨w, hw, rfl⟩⟩
        rw [h4s]; simp [hnl]
      · exact h4 l hl
  · rw [formatStep_keep st w hb]
    cases cr with
    | nil =>
      have h2a : st.2 = first.length := h2
      refine ⟨first ++ 32 :: w, [], ?_, ?_, ?_, by simp⟩
      · simp [h1, render]
      · simp [h2a]; omega
      · simp [h3, hnl]
    | cons l r =>
      have h2a : st.2 = l.length + 1 := h2
      obtain ⟨c1, c2, c3⟩ := h4 l (List.mem_cons_self _ _)
      refine ⟨first, (l ++ 32 :: w) :: r, ?_, ?_, h3, ?_⟩
      · simp [h1, render]
      · simp [h2a]; omega
      · intro x hx
        rcases List.mem_cons.1 hx with rfl | hx
        · refine ⟨by simp [c1, hnl], c2.trans (List.prefix_append _ _), Or.inl ?_⟩
          rw [h2a] at hb
          simp; omega
        · exact h4 x (List.mem_cons_of_mem _ hx)

theorem formatFold_inv (W ws : List GoString) (hws : ∀ w ∈ ws, w ∈ W ∧ 10 ∉ w)
    (st : GoString × Nat) (first : GoString) (cr : List GoString)
    (h : FormatInv W st first cr) :
    ∃ first1 cr1, FormatInv W (ws.foldl formatStep st) first1 cr1 := by
  induction ws generalizing st first cr with
  | nil => exact ⟨first, cr, h⟩
  | cons w ws ih =>
    obtain ⟨f1, c1, h1⟩ := formatStep_inv W st first cr w (hws w (List.mem_cons_self _ _)).1
      (hws w (List.mem_cons_self _ _)).2 h
    exact ih (fun x hx => hws x (List.mem_cons_of_mem _ hx)) _ f1 c1 h1

/-- The physical lines of `FormatField`: a first line and continuation lines. -/
theorem formatField_lines (key data : GoString) (hk : 10 ∉ key) (hd : 10 ∉ data) :
    ∃ first cr, physLines (FormatField key data) = first :: cr ∧
      ∀ l ∈ cr, ContLine (strings.Split data (ch ' ')) l := by
  have hsp : str ": " = [58, 32] := by decide
  obtain ⟨first, cr, h1, -, h3, h4⟩ := formatFold_inv (strings.Split data (ch ' '))
    (strings.Split data (ch ' '))
    (fun w hw => ⟨hw, fun h => hd ((mem_split _ _ _ hw).2 _ h)⟩)
    (key ++ str ": ", (key ++ str ": ").length) (key ++ str ": ") []
    ⟨rfl, rfl, by simp [hsp, hk], by simp⟩
  refine ⟨first, cr.reverse, ?_, fun l hl => h4 l (List.mem_reverse.1 hl)⟩
  rw [formatField_eq, h1, physLines_render first cr h3 (fun l hl => (h4 l hl).1)]


theorem split_join (s : GoString) (sep : Nat) :
    (strings.Split s sep).flatMap (fun w => sep :: w) = sep :: s := by
  induction s with
  | nil => simp [strings.Split]
  | cons c cs ih =>
    by_cases hc : c = sep
    · simp [strings.Split, hc, ih]
    · obtain ⟨w, ws, hw⟩ := split_ne_nil cs sep
      rw [hw] at ih
      simp only [List.flatMap_cons, List.cons_append, List.cons.injEq, true_and] at ih
      simp [strings.Split, hc, hw, ih]

theorem split_length (s : GoString) (sep : Nat) :
    ((strings.Split s sep).map (fun w => w.length + 1)).sum = s.length + 1 := by
  induction s with
  | nil => simp [strings.Split]
  | cons c cs ih =>
    by_cases hc : c = sep
    · have e : strings.Split (c :: cs) sep = [] :: strings.Split cs sep := by
        simp [strings.Split, hc]
      rw [e]
      simp only [List.map_cons, List.sum_cons, List.length_cons, List.length_nil, ih]
      omega
    · obtain ⟨w, ws, hw⟩ := split_ne_nil cs sep
      have e : strings.Split (c :: cs) sep = (c :: w) :: ws := by
        simp [strings.Split, hc, hw]
      rw [hw] at ih
      rw [e]
      simp only [List.map_cons, List.sum_cons, List.length_cons] at ih ⊢
      omega

/-- The loop of `FormatField` inserts no break while the words still to come
fit: the counter plus their lengths and their spaces is at most 80. -/
theorem formatFold_keep (ws : List GoString) (st : GoString × Nat)
    (h : st.2 + (ws.map (fun w => w.length + 1)).sum ≤ 80) :
    ws.foldl formatStep st =
      (st.1 ++ ws.flatMap (fun w => 32 :: w), st.2 + (ws.map (fun w => w.length + 1)).sum) := by
  induction ws generalizing st with
  | nil => simp
  | cons w ws ih =>
    simp only [List.map_cons, List.sum_cons] at h
    have hb : ¬ st.2 + w.length > 79 := by omega
    rw [List.foldl_cons, formatStep_keep st w hb, ih _ (by simp only []; omega)]
    simp
    omega

theorem formatField_of_fits (key data : GoString) (h : key.length + 2 + data.length ≤ 79) :
    FormatField key data = key ++ str ": " ++ str " " ++ data := by
  have h32 : ch ' ' = 32 := by decide
  have hsp : str " " = [32] := by decide
  have hcs : str ": " = [58, 32] := by decide
  rw [formatField_eq, h32, formatFold_keep _ _ (by rw [split_length]; simp [hcs]; omega)]
  simp [split_join, hsp]

/-! ## Lines of a manifest, maps and the round trip -/

theorem take_takeWhile_length (p : Nat → Bool) (s : GoString) :
    s.take (s.takeWhile p).length = s.takeWhile p := by
  have h : (s.takeWhile p ++ s.dropWhile p).take (s.takeWhile p).length = s.takeWhile p :=
    List.take_left' rfl
  rwa [List.takeWhile_append_dropWhile] at h

/-- No byte of the class begins what a greedy prefix leaves. -/
theorem dropWhile_no_longer (p : Nat → Bool) (s x y : GoString) (hx : x ≠ [])
    (hxy : x ++ y = s.dropWhile p) (hp : ∀ c ∈ x, p c = true) : False := by
  cases x with
  | nil => exact hx rfl
  | cons d x =>
    have hd : p d = true := hp d (List.mem_cons_self _ _)
    have hne : s.dropWhile p ≠ [] := by rw [← hxy]; simp
    have hh := List.head_dropWhile_not p s hne
    have : (s.dropWhile p).head hne = d := by
      simp only [← hxy, List.cons_append, List.head_cons]
    rw [this, hd] at hh
    exact absurd hh (by simp)

/-- The preferred match of `^(\S*)\s*(.*)` at the start of a line: every line
has one, with the checksum in group 1 and the path in group 2. -/
theorem manifestLineRe_run (line : GoString) :
    ∃ t l, manifestLineRe.run ⟨0, line, []⟩ = t :: l ∧
      t.caps = [(2, linePath line), (1, lineChecksum line)] := by
  -- group 1 takes the bytes before the first whitespace
  obtain ⟨l1, h1⟩ := group_star_cat_run 1 notSpace
    (.cat (.star isSpace) (.group 2 (.star anyChar))) ⟨0, line, []⟩
    (line.takeWhile notSpace) (line.dropWhile notSpace)
    (List.takeWhile_append_dropWhile _ _).symm (fun c hc => List.mem_takeWhile_imp hc)
    (fun x y hx hxy hp => (dropWhile_no_longer notSpace line x y hx hxy hp).elim)
  -- the whitespace after it
  obtain ⟨l2, h2⟩ := star_cat_run isSpace (.group 2 (.star anyChar))
    ⟨0 + (line.takeWhile notSpace).length, line.dropWhile notSpace,
      [(1, line.takeWhile notSpace)]⟩
    ((line.dropWhile notSpace).takeWhile isSpace) ((line.dropWhile notSpace).dropWhile isSpace)
    (List.takeWhile_append_dropWhile _ _).symm (fun c hc => List.mem_takeWhile_imp hc)
    (fun x y hx hxy hp => (dropWhile_no_longer isSpace _ x y hx hxy hp).elim)
  -- group 2 takes the rest of the line
  obtain ⟨l3, h3⟩ := spans_head anyChar ((line.dropWhile notSpace).dropWhile isSpace)
  have e0 : manifestLineRe.run ⟨0, line, []⟩ =
      [(⟨0, line, []⟩ : MState)].flatMap (fun t =>
        (Regex.cat (.group 1 (.star notSpace))
          (.cat (.star isSpace) (.group 2 (.star anyChar)))).run t) := rfl
  rw [e0, List.flatMap_cons, List.flatMap_nil, List.append_nil, h1]
  simp only [] at h2
  rw [h2]
  simp only [Regex.run, h3, List.map_cons, List.cons_append]
  refine ⟨_, _, rfl, ?_⟩
  simp only [lineChecksum, linePath]
  simp [take_takeWhile_length]

/-- The pattern `^(\S*)\s*(.*)` matches every line, and the submatches are the
line's checksum and path. -/
theorem manifestLineRe_find (line : GoString) :
    manifestLineRe.MatchString line = true ∧
      ∃ whole, manifestLineRe.FindStringSubmatch line =
        [whole, lineChecksum line, linePath line] := by
  obtain ⟨t, l, h, hc⟩ := manifestLineRe_run line
  have hs := search_of_run _ _ _ _ _ h
  have hn : manifestLineRe.numSubexp = 2 := by decide
  refine ⟨by simp [Regex.MatchString, hs], line.take (t.pos - 0), ?_⟩
  simp [Regex.FindStringSubmatch, hs, hn, List.range_succ, capture, hc]

/-- The loop of `parseManifestData` takes the first branch at every line. -/
theorem parseManifestData_eq (file : GoString) :
    parseManifestData file = (parseLines (scanLines file), []) := by
  have key : ∀ (lines : List GoString) (m : GoMap) (errs : List GoString),
      lines.foldl (fun acc line =>
        if manifestLineRe.MatchString line then
          (acc.1.set ((manifestLineRe.FindStringSubmatch line).getD 2 [])
            ((manifestLineRe.FindStringSubmatch line).getD 1 []), acc.2)
        else (acc.1, acc.2 ++ [str "Unable to parse data from line: " ++ line])) (m, errs) =
      (lines.foldl (fun m line => m.set (linePath line) (lineChecksum line)) m, errs) := by
    intro lines
    induction lines with
    | nil => intro m errs; rfl
    | cons line lines ih =>
      intro m errs
      obtain ⟨h1, whole, h2⟩ := manifestLineRe_find line
      rw [List.foldl_cons, List.foldl_cons, h1, h2]
      exact ih _ _
  exact key (scanLines file) GoMap.empty []


/-! ### Maps -/

theorem get?_set_self (m : GoMap) (k v : GoString) : (m.set k v).get? k = some v := by
  simp [GoMap.get?, GoMap.set]

theorem find?_filter_ne (es : List (GoString × GoString)) (k k1 : GoString) (h : k1 ≠ k) :
    (es.filter (fun e => e.1 ≠ k)).find? (fun e => e.1 = k1) = es.find? (fun e => e.1 = k1) := by
  rw [List.find?_filter]
  congr 1
  funext a
  by_cases h1 : a.1 = k1
  · simp [h1, h]
  · simp [h1]

theorem get?_set_ne (m : GoMap) (k v k1 : GoString) (h : k1 ≠ k) :
    (m.set k v).get? k1 = m.get? k1 := by
  have hk : ¬ k = k1 := fun e => h e.symm
  simp only [GoMap.get?, GoMap.set, List.find?_cons]
  simp only [hk, decide_False, find?_filter_ne _ _ _ h]

theorem get?_empty (k : GoString) : GoMap.empty.get? k = none := rfl

/-- A key outside the list of keys is not bound. -/
theorem get?_of_not_mem (m : GoMap) (k : GoString) (h : k ∉ m.keys) : m.get? k = none := by
  simp only [GoMap.get?, Option.map_eq_none', List.find?_eq_none]
  intro e he hk
  exact h (List.mem_map.2 ⟨e, he, by simpa using hk⟩)

/-- A key of the list of keys is bound, to the value `m[k]`. -/
theorem get?_of_mem (m : GoMap) (k : GoString) (h : k ∈ m.keys) : m.get? k = some (m.get k) := by
  obtain ⟨e, he, rfl⟩ := List.mem_map.1 h
  cases hf : m.entries.find? (fun x => x.1 = e.1) with
  | none =>
    rw [List.find?_eq_none] at hf
    exact absurd (by simp) (hf e he)
  | some x => simp [GoMap.get, GoMap.get?, hf]

/-- Lookup in a map filled by assignments with pairwise distinct keys. -/
theorem get?_foldl_set (kvs : List (GoString × GoString)) (hn : (kvs.map Prod.fst).Nodup)
    (m : GoMap) (k : GoString) :
    (kvs.foldl (fun m kv => m.set kv.1 kv.2) m).get? k =
      match kvs.find? (fun kv => kv.1 = k) with
      | some kv => some kv.2
      | none => m.get? k := by
  induction kvs generalizing m with
  | nil => rfl
  | cons kv kvs ih =>
    rw [List.map_cons, List.nodup_cons] at hn
    rw [List.foldl_cons, ih hn.2]
    by_cases hk : kv.1 = k
    · subst hk
      have hnone : kvs.find? (fun x => x.1 = kv.1) = none := by
        rw [List.find?_eq_none]
        intro x hx hxk
        exact hn.1 (List.mem_map.2 ⟨x, hx, by simpa using hxk⟩)
      simp [hnone, List.find?_cons, get?_set_self]
    · have hk1 : k ≠ kv.1 := fun e => hk e.symm
      simp only [List.find?_cons, hk, decide_False]
      cases kvs.find? (fun x => x.1 = k) with
      | none => simp [get?_set_ne _ _ _ _ hk1]
      | some x => rfl

/-! ### Lines -/

theorem takeWhile_append_stop (p : Nat → Bool) (a b : GoString) (ha : ∀ c ∈ a, p c = true)
    (hb : ∀ c, b.head? = some c → p c = false) :
    (a ++ b).takeWhile p = a ∧ (a ++ b).dropWhile p = b := by
  induction a with
  | nil =>
    cases b with
    | nil => simp
    | cons c b => simp [List.takeWhile_cons, List.dropWhile_cons, hb c rfl]
  | cons c a ih =>
    have hc := ha c (List.mem_cons_self _ _)
    have := ih (fun x hx => ha x (List.mem_cons_of_mem _ hx))
    simp [List.takeWhile_cons, List.dropWhile_cons, hc, this]

theorem rawLines_append_lf (l rest : GoString) (h : 10 ∉ l) :
    rawLines (l ++ 10 :: rest) = l :: rawLines rest := by
  have h10 : ch '\n' = 10 := by decide
  induction l with
  | nil => simp [rawLines, h10]
  | cons c l ih =>
    have hc : c ≠ 10 := fun e => h (by simp [e])
    have := ih (fun e => h (List.mem_cons_of_mem _ e))
    simp [rawLines, h10, hc, this]

theorem rawLines_unlines (ls : List GoString) (h : ∀ l ∈ ls, 10 ∉ l) :
    rawLines (ls.flatMap (fun l => l ++ [10])) = ls := by
  induction ls with
  | nil => rfl
  | cons l ls ih =>
    rw [List.flatMap_cons, List.append_assoc, List.singleton_append,
      rawLines_append_lf _ _ (h l (List.mem_cons_self _ _)),
      ih (fun x hx => h x (List.mem_cons_of_mem _ hx))]

/-- The scanner returns the lines of a text of terminated lines, when each is
shorter than the buffer and none ends in a carriage return. -/
theorem scanLines_unlines (ls : List GoString)
    (h : ∀ l ∈ ls, 10 ∉ l ∧ l.length < MaxScanTokenSize ∧ l.getLast? ≠ some 13) :
    scanLines (ls.flatMap (fun l => l ++ [10])) = ls := by
  have h13 : ch '\r' = 13 := by decide
  rw [scanLines, rawLines_unlines ls (fun l hl => (h l hl).1)]
  have ht : ls.takeWhile (fun l => decide (l.length < MaxScanTokenSize)) = ls := by
    rw [List.takeWhile_eq_self_iff]
    intro l hl
    simpa using (h l hl).2.1
  rw [ht]
  conv_rhs => rw [← List.map_id ls]
  apply List.map_congr_left
  intro l hl
  simp [dropCR, h13, (h l hl).2.2]


theorem readable_line (r : Record) (h : r.Readable) :
    lineChecksum r.line = r.checksum ∧ linePath r.line = r.path ∧ 10 ∉ r.line := by
  obtain ⟨h1, h2, h3, h4, h5, -, -⟩ := h
  have hsep : ∀ c, (r.sep ++ r.path).head? = some c → notSpace c = false := by
    intro c hc
    cases hs : r.sep with
    | nil => exact absurd hs h2
    | cons d ds =>
      rw [hs] at hc
      simp only [List.cons_append, List.head?_cons, Option.some.injEq] at hc
      have := (h3 d (by rw [hs]; simp)).1
      simp [notSpace, ← hc, this]
  have e1 := takeWhile_append_stop notSpace r.checksum (r.sep ++ r.path)
    (fun c hc => by simp [notSpace, h1 c hc]) hsep
  have e2 := takeWhile_append_stop isSpace r.sep r.path (fun c hc => (h3 c hc).1)
    (fun c hc => h4 c hc)
  have e3 := takeWhile_append_stop anyChar r.path []
    (fun c hc => by
      have : c ≠ 10 := fun e => h5 (e ▸ hc)
      simp [anyChar, this]) (by simp)
  rw [List.append_nil] at e3
  refine ⟨?_, ?_, ?_⟩
  · rw [lineChecksum, Record.line, List.append_assoc, e1.1]
  · rw [linePath, Record.line, List.append_assoc, e1.2, e2.2, e3.1]
  · simp only [Record.line, List.mem_append, not_or]
    refine ⟨⟨fun hc => ?_, fun hc => (h3 10 hc).2 rfl⟩, h5⟩
    have := h1 10 hc
    simp [isSpace] at this

/-- What the parser reads from the text of readable records with pairwise
distinct paths: no error, and the path of each record bound to its checksum. -/
theorem parse_records (recs : List Record) (h : ∀ r ∈ recs, r.Readable)
    (hn : (recs.map Record.path).Nodup) :
    (parseManifestData (unlines (recs.map Record.line))).2 = [] ∧
      ∀ k, (parseManifestData (unlines (recs.map Record.line))).1.get? k =
        (recs.find? (fun r => r.path = k)).map Record.checksum := by
  have hlf : str "\n" = [10] := by decide
  have hscan : scanLines (unlines (recs.map Record.line)) = recs.map Record.line := by
    rw [unlines, hlf]
    apply scanLines_unlines
    intro l hl
    obtain ⟨r, hr, rfl⟩ := List.mem_map.1 hl
    exact ⟨(readable_line r (h r hr)).2.2, (h r hr).2.2.2.2.2.2, (h r hr).2.2.2.2.2.1⟩
  have hfold : ∀ (rs : List Record) (m : GoMap), (∀ r ∈ rs, r.Readable) →
      (rs.map Record.line).foldl (fun m line => m.set (linePath line) (lineChecksum line)) m =
        (rs.map (fun r => (r.path, r.checksum))).foldl (fun m kv => m.set kv.1 kv.2) m := by
    intro rs
    induction rs with
    | nil => intro m _; rfl
    | cons r rs ih =>
      intro m hr
      obtain ⟨e1, e2, -⟩ := readable_line r (hr r (List.mem_cons_self _ _))
      simp only [List.map_cons, List.foldl_cons, e1, e2]
      exact ih _ (fun x hx => hr x (List.mem_cons_of_mem _ hx))
  rw [parseManifestData_eq, hscan]
  refine ⟨rfl, fun k => ?_⟩
  simp only [parseLines]
  rw [hfold recs _ h, get?_foldl_set _ (by simpa [List.map_map, Function.comp_def] using hn)]
  rw [List.find?_map]
  have hfun : ((fun kv : GoString × GoString => decide (kv.1 = k)) ∘
      fun r : Record => (r.path, r.checksum)) = fun r => decide (r.path = k) := rfl
  rw [hfun]
  cases recs.find? (fun r => decide (r.path = k)) <;> rfl

/-- The text `Manifest.Write` produces is the text of the records of the
sorted keys. -/
theorem write_eq_unlines (m : Manifest) :
    m.Write = unlines (((sort.Strings m.Data.keys).map
      (fun k => (⟨m.Data.get k, str " ", k⟩ : Record))).map Record.line) := by
  simp [Manifest.Write, unlines, Record.line, List.flatMap_map]

theorem sort_perm (ks : List GoString) : (sort.Strings ks).Perm ks :=
  List.perm_insertionSort _ ks

theorem sort_sorted (ks : List GoString) : (sort.Strings ks).Sorted (fun a b => a ≤ b) :=
  List.sorted_insertionSort _ ks

/-- Reading back what `Write` wrote, for a map whose entries the format can
hold. -/
theorem roundtrip_core (m : Manifest)
    (h : ∀ e ∈ m.Data.entries, (∀ c ∈ e.2, isSpace c = false) ∧ 10 ∉ e.1 ∧
      (∀ c ∈ e.1.head?, isSpace c = false) ∧ e.1.getLast? ≠ some 13 ∧
      (e.2 ++ str " " ++ e.1).length < MaxScanTokenSize) :
    (parseManifestData m.Write).2 = [] ∧ (parseManifestData m.Write).1.Same m.Data := by
  have hsp : str " " = [32] := by decide
  have hmem : ∀ k ∈ sort.Strings m.Data.keys, k ∈ m.Data.keys :=
    fun k hk => (sort_perm _).mem_iff.1 hk
  have hentry : ∀ k ∈ m.Data.keys, (k, m.Data.get k) ∈ m.Data.entries := by
    intro k hk
    have h1 := get?_of_mem m.Data k hk
    simp only [GoMap.get?, Option.map_eq_some'] at h1
    obtain ⟨e, he, hv⟩ := h1
    have := List.find?_some he
    have hm := List.mem_of_find?_eq_some he
    simp only [decide_eq_true_eq] at this
    have he2 : (k, m.Data.get k) = e := by rw [← hv, ← this]
    rw [he2]
    exact hm
  have hread : ∀ r ∈ (sort.Strings m.Data.keys).map
      (fun k => (⟨m.Data.get k, str " ", k⟩ : Record)), r.Readable := by
    intro r hr
    obtain ⟨k, hk, rfl⟩ := List.mem_map.1 hr
    obtain ⟨h1, h2, h3, h4, h5⟩ := h _ (hentry k (hmem k hk))
    refine ⟨h1, by simp [hsp], ?_, h3, h2, ?_, h5⟩
    · intro c hc
      simp only [hsp, List.mem_singleton] at hc
      subst hc
      exact ⟨by decide, by decide⟩
    · simp only [Record.line, hsp]
      simp only at h4
      cases hk1 : k with
      | nil => simp
      | cons d ds =>
        rw [hk1] at h4
        rw [List.getLast?_append_of_ne_nil _ (by simp)]
        exact h4
  have hnodup : (((sort.Strings m.Data.keys).map
      (fun k => (⟨m.Data.get k, str " ", k⟩ : Record))).map Record.path).Nodup := by
    rw [List.map_map]
    have : (Record.path ∘ fun k => (⟨m.Data.get k, str " ", k⟩ : Record)) = id := rfl
    rw [this, List.map_id]
    exact (sort_perm _).nodup_iff.2 m.Data.nodup
  obtain ⟨e1, e2⟩ := parse_records _ hread hnodup
  rw [write_eq_unlines]
  refine ⟨e1, fun k => ?_⟩
  rw [e2 k, List.find?_map]
  have hfun : ((fun r : Record => decide (r.path = k)) ∘
      fun k => (⟨m.Data.get k, str " ", k⟩ : Record)) = fun x => decide (x = k) := rfl
  rw [hfun]
  by_cases hk : k ∈ m.Data.keys
  · have hk1 : k ∈ sort.Strings m.Data.keys := (sort_perm _).mem_iff.2 hk
    have hf : (sort.Strings m.Data.keys).find? (fun x => decide (x = k)) = some k := by
      cases hq : (sort.Strings m.Data.keys).find? (fun x => decide (x = k)) with
      | none =>
        rw [List.find?_eq_none] at hq
        exact absurd (by simp) (hq k hk1)
      | some x =>
        have := List.find?_some hq
        simp only [decide_eq_true_eq] at this
        rw [this]
    rw [hf, get?_of_mem _ _ hk]
    rfl
  · have hf : (sort.Strings m.Data.keys).find? (fun x => decide (x = k)) = none := by
      rw [List.find?_eq_none]
      intro x hx hxk
      simp only [decide_eq_true_eq] at hxk
      exact hk (hxk ▸ hmem x hx)
    rw [hf, get?_of_not_mem _ _ hk]
    rfl


/-- In a map every entry is the binding of its key. -/
theorem get_of_mem_entries (m : GoMap) (e : GoString × GoString) (he : e ∈ m.entries) :
    m.get e.1 = e.2 := by
  have h1 := get?_of_mem m e.1 (List.mem_map.2 ⟨e, he, rfl⟩)
  simp only [GoMap.get?, Option.map_eq_some'] at h1
  obtain ⟨x, hx, hv⟩ := h1
  have hx1 : x.1 = e.1 := by simpa using List.find?_some hx
  have hxe : x = e := List.inj_on_of_nodup_map m.nodup (List.mem_of_find?_eq_some hx) he hx1
  rw [← hv, hxe]

/-- The scanner gives up at a line of `MaxScanTokenSize` bytes or more. -/
theorem parse_long_line (n : Nat) (hn : MaxScanTokenSize ≤ n) (k : GoString) :
    (parseManifestData (str "abc " ++ List.replicate n (ch 'a') ++ str "\n")).1.get? k = none := by
  have hl : str "\n" = [10] := by decide
  have hnl : 10 ∉ str "abc " ++ List.replicate n (ch 'a') := by
    have h1 : ch 'a' ≠ 10 := by decide
    have h2 : 10 ∉ str "abc " := by decide
    rw [List.mem_append, not_or]
    exact ⟨h2, fun h => h1 (List.eq_of_mem_replicate h).symm⟩
  have hlen : ¬ (str "abc " ++ List.replicate n (ch 'a')).length < MaxScanTokenSize := by
    rw [List.length_append, List.length_replicate]
    omega
  rw [parseManifestData_eq, scanLines, hl,
    show str "abc " ++ List.replicate n (ch 'a') ++ [10]
      = (str "abc " ++ List.replicate n (ch 'a')) ++ 10 :: [] by simp,
    rawLines_append_lf _ _ hnl, List.takeWhile_cons, if_neg (by simpa using hlen)]
  rfl

/-! ## The manifest -/

/-- C1 (amended): for every manifest in which each checksum has no whitespace
byte and each path has no line feed, does not begin with a whitespace byte and
does not end with a carriage return, and each rendered line is shorter than
the 64 KiB of the scanner, parsing the text of `ToString` (the text `Write`
sends) returns a mapping equal to the original one, with no errors. -/
theorem manifest_roundtrip (m : Manifest)
    (h : ∀ e ∈ m.Data.entries, (∀ c ∈ e.2, isSpace c = false) ∧ ch '\n' ∉ e.1 ∧
      (∀ c ∈ e.1.head?, isSpace c = false) ∧ e.1.getLast? ≠ some (ch '\r') ∧
      (e.2 ++ str " " ++ e.1).length < MaxScanTokenSize) :
    (ParseManifestData m.ToString).2 = [] ∧ (ParseManifestData m.ToString).1.Same m.Data ∧
      m.Write = m.ToString :=
  ⟨(roundtrip_core m h).1, (roundtrip_core m h).2, rfl⟩

/-- C1 (amended) at a manifest of two files. -/
theorem manifest_roundtrip_witness :
    (∀ e ∈ (GoMap.ofList [(str "data/b.txt", str "0a1b"), (str "data/a 1.txt", str "ff00")]).entries,
      (∀ c ∈ e.2, isSpace c = false) ∧ ch '\n' ∉ e.1 ∧
      (∀ c ∈ e.1.head?, isSpace c = false) ∧ e.1.getLast? ≠ some (ch '\r') ∧
      (e.2 ++ str " " ++ e.1).length < MaxScanTokenSize) ∧
    (ParseManifestData (Manifest.ToString ⟨str "manifest-md5.txt",
        GoMap.ofList [(str "data/b.txt", str "0a1b"), (str "data/a 1.txt", str "ff00")]⟩)).2 = [] ∧
    (ParseManifestData (Manifest.ToString ⟨str "manifest-md5.txt",
        GoMap.ofList [(str "data/b.txt", str "0a1b"), (str "data/a 1.txt", str "ff00")]⟩)).1.Same
      (GoMap.ofList [(str "data/b.txt", str "0a1b"), (str "data/a 1.txt", str "ff00")]) :=
  ⟨by decide,
    (manifest_roundtrip ⟨str "manifest-md5.txt",
      GoMap.ofList [(str "data/b.txt", str "0a1b"), (str "data/a 1.txt", str "ff00")]⟩
      (by decide)).1,
    (manifest_roundtrip ⟨str "manifest-md5.txt",
      GoMap.ofList [(str "data/b.txt", str "0a1b"), (str "data/a 1.txt", str "ff00")]⟩
      (by decide)).2.1⟩

/-- C1 as stated fails: a path that begins with a space, a path that ends in a
carriage return, a checksum with a space and a path with a line feed are not
read back. -/
theorem manifest_roundtrip_fails :
    Manifest.ToString ⟨str "manifest-md5.txt", GoMap.ofList [(str " a", str "x"),
        (str "b\r", str "y"), (str "c", str "z z"), (str "d\ne", str "w")]⟩ =
      str "x  a\ny b\r\nz z c\nw d\ne\n" ∧
    (ParseManifestData (str "x  a\ny b\r\nz z c\nw d\ne\n")).1.entries =
      [(str "", str "e"), (str "d", str "w"), (str "z c", str "z"), (str "b", str "y"),
        (str "a", str "x")] ∧
    ¬ (ParseManifestData (Manifest.ToString ⟨str "manifest-md5.txt",
        GoMap.ofList [(str " a", str "x"), (str "b\r", str "y"), (str "c", str "z z"),
          (str "d\ne", str "w")]⟩)).1.Same
      (GoMap.ofList [(str " a", str "x"), (str "b\r", str "y"), (str "c", str "z z"),
        (str "d\ne", str "w")]) := by
  refine ⟨by decide, by decide, fun h => ?_⟩
  have := h (str " a")
  revert this
  decide

/-- C2 fails on the code: the line `onlyonetoken` matches `^(\S*)\s*(.*)`, and
`ParseManifestData` returns one entry, the empty path bound to the token, and
no error. -/
theorem parse_single_token :
    (ParseManifestData (str "onlyonetoken")).1.entries = [(str "", str "onlyonetoken")] ∧
      (ParseManifestData (str "onlyonetoken")).2 = [] := by
  decide

/-- C3: `ToString`, which is what `Write` sends to its writer, is the
concatenation of checksum, space, path and line feed over the entries of `Data`
taken in ascending order of their paths, one record per entry; it is empty for
the empty map. -/
theorem toString_sorted_records (m : Manifest) (name : GoString) :
    (∃ es : List (GoString × GoString), es.Perm m.Data.entries ∧
      (es.map Prod.fst).Sorted (fun a b => a < b) ∧
      m.ToString = es.flatMap (fun e => e.2 ++ str " " ++ e.1 ++ str "\n")) ∧
    m.Write = m.ToString ∧ (⟨name, GoMap.empty⟩ : Manifest).ToString = [] := by
  refine ⟨⟨(sort.Strings m.Data.keys).map (fun k => (k, m.Data.get k)), ?_, ?_, ?_⟩, rfl, rfl⟩
  · have h1 : m.Data.entries = m.Data.keys.map (fun k => (k, m.Data.get k)) := by
      rw [GoMap.keys, List.map_map]
      conv_lhs => rw [← List.map_id m.Data.entries]
      apply List.map_congr_left
      intro e he
      simp [get_of_mem_entries m.Data e he]
    conv_rhs => rw [h1]
    exact (sort_perm _).map _
  · rw [List.map_map]
    have : (Prod.fst ∘ fun k => (k, m.Data.get k)) = id := rfl
    rw [this, List.map_id]
    exact (sort_sorted _).lt_of_le ((sort_perm _).nodup_iff.2 m.Data.nodup)
  · simp [Manifest.ToString, Manifest.Write, List.flatMap_map]

/-- C4 (amended): for every list of lines, in any order, each a non-empty
checksum without whitespace, a non-empty run of spaces and tabs and a path
that does not begin with whitespace, the paths pairwise distinct, and in
addition no path with a line feed or with a final carriage return and no line
of 64 KiB or more, `ParseManifestData` returns the mapping that sends each
path to its checksum, and no errors. -/
theorem parse_shaped_lines (recs : List Record)
    (hshape : ∀ r ∈ recs, r.checksum ≠ [] ∧ (∀ c ∈ r.checksum, isSpace c = false) ∧
      r.sep ≠ [] ∧ (∀ c ∈ r.sep, c = ch ' ' ∨ c = ch '\t') ∧
      (∀ c ∈ r.path.head?, isSpace c = false))
    (hdistinct : (recs.map Record.path).Nodup)
    (hline : ∀ r ∈ recs, ch '\n' ∉ r.path ∧ r.path.getLast? ≠ some (ch '\r') ∧
      r.line.length < MaxScanTokenSize) :
    (ParseManifestData (unlines (recs.map Record.line))).2 = [] ∧
      ∀ k, (ParseManifestData (unlines (recs.map Record.line))).1.get? k =
        (recs.find? (fun r => r.path = k)).map Record.checksum := by
  have h32 : ch ' ' = 32 := by decide
  have h9 : ch '\t' = 9 := by decide
  apply parse_records recs _ hdistinct
  intro r hr
  obtain ⟨-, h2, h3, h4, h5⟩ := hshape r hr
  obtain ⟨h6, h7, h8⟩ := hline r hr
  have hsep : ∀ c ∈ r.sep, isSpace c = true ∧ c ≠ 10 ∧ c ≠ 13 := by
    intro c hc
    rcases h4 c hc with e | e
    · rw [e, h32]; decide
    · rw [e, h9]; decide
  refine ⟨h2, h3, fun c hc => ⟨(hsep c hc).1, (hsep c hc).2.1⟩, h5, h6, ?_, h8⟩
  rw [Record.line]
  cases hp : r.path with
  | nil =>
    rw [List.append_nil]
    rw [List.getLast?_append_of_ne_nil _ h3]
    intro hl
    exact (hsep 13 (List.mem_of_getLast?_eq_some hl)).2.2 rfl
  | cons d ds =>
    rw [List.getLast?_append_of_ne_nil _ (by simp), ← hp]
    exact h7

/-- C4 (amended) at two lines that are not in the order of their paths, one
with a space in its path and two spaces after the checksum, one with a tab. -/
theorem parse_shaped_lines_witness :
    (∀ r ∈ [(⟨str "0a1b", str "  ", str "data/my file.txt"⟩ : Record),
        ⟨str "ff00", str "\t", str "data/a.txt"⟩],
      r.checksum ≠ [] ∧ (∀ c ∈ r.checksum, isSpace c = false) ∧
      r.sep ≠ [] ∧ (∀ c ∈ r.sep, c = ch ' ' ∨ c = ch '\t') ∧
      (∀ c ∈ r.path.head?, isSpace c = false)) ∧
    ([(⟨str "0a1b", str "  ", str "data/my file.txt"⟩ : Record),
        ⟨str "ff00", str "\t", str "data/a.txt"⟩].map Record.path).Nodup ∧
    (∀ r ∈ [(⟨str "0a1b", str "  ", str "data/my file.txt"⟩ : Record),
        ⟨str "ff00", str "\t", str "data/a.txt"⟩],
      ch '\n' ∉ r.path ∧ r.path.getLast? ≠ some (ch '\r') ∧
      r.line.length < MaxScanTokenSize) ∧
    (ParseManifestData (unlines ([(⟨str "0a1b", str "  ", str "data/my file.txt"⟩ : Record),
        ⟨str "ff00", str "\t", str "data/a.txt"⟩].map Record.line))).2 = [] ∧
    ∀ k, (ParseManifestData (unlines ([(⟨str "0a1b", str "  ", str "data/my file.txt"⟩ : Record),
        ⟨str "ff00", str "\t", str "data/a.txt"⟩].map Record.line))).1.get? k =
      ([(⟨str "0a1b", str "  ", str "data/my file.txt"⟩ : Record),
        ⟨str "ff00", str "\t", str "data/a.txt"⟩].find? (fun r => r.path = k)).map
        Record.checksum :=
  ⟨by decide, by decide, by decide,
    parse_shaped_lines [⟨str "0a1b", str "  ", str "data/my file.txt"⟩,
      ⟨str "ff00", str "\t", str "data/a.txt"⟩] (by decide) (by decide) (by decide)⟩

/-- C4 as stated fails: the scanner drops the carriage return that ends the
path of the line `abc def\r`, so that the path `def` and not `def\r` is bound;
and it gives up at a line of 64 KiB, whose path is then not bound at all. -/
theorem parse_shaped_lines_fails :
    (∀ r ∈ [(⟨str "abc", str " ", str "def\r"⟩ : Record)],
      r.checksum ≠ [] ∧ (∀ c ∈ r.checksum, isSpace c = false) ∧
      r.sep ≠ [] ∧ (∀ c ∈ r.sep, c = ch ' ' ∨ c = ch '\t') ∧
      (∀ c ∈ r.path.head?, isSpace c = false)) ∧
    (ParseManifestData (unlines ([(⟨str "abc", str " ", str "def\r"⟩ : Record)].map
      Record.line))).1.entries = [(str "def", str "abc")] ∧
    ¬ (∀ k, (ParseManifestData (unlines ([(⟨str "abc", str " ", str "def\r"⟩ : Record)].map
        Record.line))).1.get? k =
      ([(⟨str "abc", str " ", str "def\r"⟩ : Record)].find? (fun r => r.path = k)).map
        Record.checksum) ∧
    (ParseManifestData (str "abc " ++ List.replicate 65536 (ch 'a') ++ str "\n")).1.get?
      (List.replicate 65536 (ch 'a')) = none := by
  refine ⟨by decide, by decide, fun h => ?_, parse_long_line 65536 (by decide) _⟩
  have := h (str "def\r")
  revert this
  decide

/-! ## The algorithm name of a manifest file -/

/-- C9: for every filename whose base name is `pre-token.txt`, where the token
has no hyphen and the base name has no line feed, `parseAlgoName` returns the
token and no error. -/
theorem parseAlgoName_token (name pre token : GoString)
    (hbase : filepath.Base name = pre ++ str "-" ++ token ++ str ".txt")
    (hnl : ch '\n' ∉ filepath.Base name) (htok : ch '-' ∉ token) :
    parseAlgoName name = .ok token := by
  have h45 : str "-" = [45] := by decide
  have h10 : ch '\n' = 10 := by decide
  rw [hbase, h45, h10] at hnl
  rw [ch_minus] at htok
  obtain ⟨l, hl⟩ := algoNameRe_run pre token
    (fun c hc h => hnl (by rw [h] at hc; simp [hc]))
    (fun c hc => ⟨fun h => hnl (by rw [h] at hc; simp [hc]), fun h => htok (by rw [h] at hc; exact hc)⟩)
  have hs := search_of_run _ _ _ _ _ hl
  have hn : algoNameRe.numSubexp = 3 := by decide
  have htext : pre ++ str "-" ++ token ++ str ".txt" = pre ++ 45 :: (token ++ str ".txt") := by
    simp [h45]
  unfold parseAlgoName
  rw [hbase, htext]
  simp [Regex.FindStringSubmatch, hs, hn, List.range_succ, capture]

/-- C9 at `tagmanifest-sha256.txt`: the token is `sha256`. -/
theorem parseAlgoName_token_witness :
    filepath.Base (str "bag/tagmanifest-sha256.txt")
        = str "tagmanifest" ++ str "-" ++ str "sha256" ++ str ".txt" ∧
      ch '\n' ∉ filepath.Base (str "bag/tagmanifest-sha256.txt") ∧
      ch '-' ∉ str "sha256" ∧
      parseAlgoName (str "bag/tagmanifest-sha256.txt") = .ok (str "sha256") :=
  ⟨by decide, by decide, by decide,
    parseAlgoName_token (str "bag/tagmanifest-sha256.txt") (str "tagmanifest") (str "sha256")
      (by decide) (by decide) (by decide)⟩

/-- C10: for every filename whose base name has no hyphen or does not end in
`.txt`, `parseAlgoName` returns the error and no token. -/
theorem parseAlgoName_error (name : GoString)
    (h : ch '-' ∉ filepath.Base name ∨ ¬ (str ".txt" <:+ filepath.Base name)) :
    parseAlgoName name = .error (str "Unable to determine algorithm from filename!") := by
  have hs : algoNameRe.search 0 (filepath.Base name) = none := by
    apply search_none
    intro pos1 s1 hs1
    rw [List.eq_nil_iff_forall_not_mem]
    intro t ht
    obtain ⟨a, b, hab⟩ := algoNameRe_sound _ _ ht
    simp only at hab
    obtain ⟨r, hr⟩ := hs1
    rcases h with h | h
    · apply h
      rw [← hr, hab, ch_minus]
      simp
    · apply h
      rw [← hr, hab]
      exact ⟨r ++ a ++ 45 :: b, by simp⟩
  simp [parseAlgoName, Regex.FindStringSubmatch, hs]

/-- C10 at `notamanifest`, a name without hyphen and without `.txt`. -/
theorem parseAlgoName_error_witness :
    (ch '-' ∉ filepath.Base (str "notamanifest") ∨
        ¬ (str ".txt" <:+ filepath.Base (str "notamanifest"))) ∧
      parseAlgoName (str "notamanifest") =
        .error (str "Unable to determine algorithm from filename!") :=
  ⟨Or.inl (by decide), parseAlgoName_error (str "notamanifest") (Or.inl (by decide))⟩

/-! ## The field formatter -/

/-- C5 (amended): for every key and value without line feeds, every physical
line of `FormatField` after the first is at most 79 bytes long, unless it
holds a single word: the indentation followed by one word of the value. -/
theorem formatField_continuation_width (key data : GoString) (hk : ch '\n' ∉ key)
    (hd : ch '\n' ∉ data) (l : GoString) (hl : l ∈ (physLines (FormatField key data)).tail) :
    l.length ≤ 79 ∨ ∃ w ∈ strings.Split data (ch ' '), l = str "    " ++ w := by
  obtain ⟨first, cr, h1, h2⟩ := formatField_lines key data hk hd
  rw [h1] at hl
  exact (h2 l hl).2.2

/-- C5 (amended) at a value of three words that is wrapped once. -/
theorem formatField_continuation_width_witness :
    ch '\n' ∉ str "Source" ∧
      ch '\n' ∉ List.replicate 70 (ch 'a') ++ str " " ++ List.replicate 70 (ch 'b') ++ str " c" ∧
      (str "    " ++ List.replicate 70 (ch 'b') ++ str " c") ∈
        (physLines (FormatField (str "Source")
          (List.replicate 70 (ch 'a') ++ str " " ++ List.replicate 70 (ch 'b') ++ str " c"))).tail ∧
      ((str "    " ++ List.replicate 70 (ch 'b') ++ str " c").length ≤ 79 ∨
        ∃ w ∈ strings.Split
            (List.replicate 70 (ch 'a') ++ str " " ++ List.replicate 70 (ch 'b') ++ str " c")
            (ch ' '),
          str "    " ++ List.replicate 70 (ch 'b') ++ str " c" = str "    " ++ w) :=
  ⟨by decide, by decide, by decide,
    formatField_continuation_width (str "Source")
      (List.replicate 70 (ch 'a') ++ str " " ++ List.replicate 70 (ch 'b') ++ str " c")
      (by decide) (by decide) _ (by decide)⟩

/-- C5 as stated fails: a word of 80 bytes is written whole on its
continuation line, which is 84 bytes long; and a key of 90 bytes is written
whole on the first line, which is 92 bytes long. -/
theorem formatField_line_too_long :
    ch '\n' ∉ str "x " ++ List.replicate 80 (ch 'y') ∧
      (physLines (FormatField (str "Source") (str "x " ++ List.replicate 80 (ch 'y')))).map
          List.length = [10, 84] ∧
      ¬ (∀ l ∈ physLines (FormatField (str "Source") (str "x " ++ List.replicate 80 (ch 'y'))),
          l.length ≤ 79) ∧
      (physLines (FormatField (List.replicate 90 (ch 'k')) (str "a b"))).map
          List.length = [92, 7] := by
  decide

/-- C6 (amended): for every key and value without line feeds, every physical
line of `FormatField` after the first begins with four spaces, the three of
the break and the one written before each word. -/
theorem formatField_continuation_indent (key data : GoString) (hk : ch '\n' ∉ key)
    (hd : ch '\n' ∉ data) (l : GoString) (hl : l ∈ (physLines (FormatField key data)).tail) :
    str "    " <+: l := by
  obtain ⟨first, cr, h1, h2⟩ := formatField_lines key data hk hd
  rw [h1] at hl
  exact (h2 l hl).2.1

/-- C6 (amended) at a value of three words that is wrapped once. -/
theorem formatField_continuation_indent_witness :
    ch '\n' ∉ str "Source" ∧
      ch '\n' ∉ List.replicate 70 (ch 'a') ++ str " " ++ List.replicate 70 (ch 'b') ++ str " c" ∧
      (str "    " ++ List.replicate 70 (ch 'b') ++ str " c") ∈
        (physLines (FormatField (str "Source")
          (List.replicate 70 (ch 'a') ++ str " " ++ List.replicate 70 (ch 'b') ++ str " c"))).tail ∧
      str "    " <+: str "    " ++ List.replicate 70 (ch 'b') ++ str " c" :=
  ⟨by decide, by decide, by decide,
    formatField_continuation_indent (str "Source")
      (List.replicate 70 (ch 'a') ++ str " " ++ List.replicate 70 (ch 'b') ++ str " c")
      (by decide) (by decide) _ (by decide)⟩

/-- C6 as stated fails: the fourth byte of a continuation line is a space. -/
theorem formatField_fourth_space :
    ch '\n' ∉ List.replicate 70 (ch 'a') ++ str " " ++ List.replicate 70 (ch 'b') ∧
      (physLines (FormatField (str "Source")
        (List.replicate 70 (ch 'a') ++ str " " ++ List.replicate 70 (ch 'b')))).tail =
          [str "    " ++ List.replicate 70 (ch 'b')] ∧
      ¬ (∀ l ∈ (physLines (FormatField (str "Source")
            (List.replicate 70 (ch 'a') ++ str " " ++ List.replicate 70 (ch 'b')))).tail,
          str "   " <+: l ∧ l[3]? ≠ some (ch ' ')) := by
  decide

/-- C7 (amended): for every key and value that fit on one line,
`len(key) + 2 + len(value) < 79`, `FormatField` is the key, a colon and a
space, then the value after one more space: each word of the value is
preceded by a single space, the first one too. -/
theorem formatField_fits (key data : GoString) (h : key.length + 2 + data.length < 79) :
    FormatField key data = key ++ str ": " ++ str " " ++ data :=
  formatField_of_fits key data (by omega)

/-- C7 (amended) at a field of a bag. -/
theorem formatField_fits_witness :
    (str "Source-Organization").length + 2 + (str "Spengler University").length < 79 ∧
      FormatField (str "Source-Organization") (str "Spengler University") =
        str "Source-Organization" ++ str ": " ++ str " " ++ str "Spengler University" :=
  ⟨by decide, formatField_fits _ _ (by decide)⟩

/-- C7 as stated fails: two spaces follow the colon. -/
theorem formatField_two_spaces :
    (str "Source-Organization").length + 2 + (str "Spengler University").length < 79 ∧
      FormatField (str "Source-Organization") (str "Spengler University") =
        str "Source-Organization:  Spengler University" ∧
      FormatField (str "Source-Organization") (str "Spengler University") ≠
        str "Source-Organization" ++ str ": " ++ str "Spengler University" := by
  decide

/-- C8: for every key and value without line feeds with
`len(key) + 2 + len(value) < 79`, the output of `FormatField` has no line feed:
it is exactly one line. -/
theorem formatField_short_one_line (key data : GoString) (hk : ch '\n' ∉ key)
    (hd : ch '\n' ∉ data) (h : key.length + 2 + data.length < 79) :
    ch '\n' ∉ FormatField key data ∧
      physLines (FormatField key data) = [FormatField key data] := by
  have h10 : ch '\n' = 10 := by decide
  have hcs : str ": " = [58, 32] := by decide
  have hsp : str " " = [32] := by decide
  have hno : ch '\n' ∉ FormatField key data := by
    rw [formatField_of_fits key data (by omega)]
    rw [h10] at hk hd ⊢
    simp [hcs, hsp, hk, hd]
  exact ⟨hno, split_of_not_mem _ _ hno⟩

/-- C8 at a field of a bag. -/
theorem formatField_short_one_line_witness :
    ch '\n' ∉ str "Source-Organization" ∧ ch '\n' ∉ str "Spengler University" ∧
      (str "Source-Organization").length + 2 + (str "Spengler University").length < 79 ∧
      ch '\n' ∉ FormatField (str "Source-Organization") (str "Spengler University") ∧
      physLines (FormatField (str "Source-Organization") (str "Spengler University")) =
        [FormatField (str "Source-Organization") (str "Spengler University")] :=
  ⟨by decide, by decide, by decide,
    formatField_short_one_line _ _ (by decide) (by decide) (by decide)⟩


/-- The path `filepath.Clean` returns is never empty. -/
theorem clean_ne_nil (path : GoString) : filepath.Clean path ≠ [] := by
  have hdot : str "." ≠ [] := by decide
  unfold filepath.Clean
  split_ifs with h1
  · exact hdot
  · simp only []
    split_ifs <;> first | exact hdot | assumption

/-- The path `filepath.Dir` returns is never empty. -/
theorem dir_ne_nil (path : GoString) : filepath.Dir path ≠ [] := clean_ne_nil _

/-- The name `NewManifest` gives to the manifest it returns. -/
theorem newManifest_ok {H : Type} (Stat : GoString → StatResult)
    (LookupHash : GoString → Except GoString H) (pth hashName : GoString) (m : Manifest)
    (h : NewManifest Stat LookupHash pth hashName = .ok m) :
    m.name = if strings.Contains pth (str "manifest-") = true then pth
      else filepath.Join [pth, str "manifest-" ++ strings.ToLower hashName ++ str ".txt"] := by
  unfold NewManifest at h
  cases hs : Stat (filepath.Dir pth) with
  | notExist e => rw [hs] at h; cases h
  | failed e => rw [hs] at h; cases h
  | ok =>
    rw [hs] at h
    cases hl : LookupHash hashName with
    | error e => rw [hl] at h; cases h
    | ok hf =>
      rw [hl] at h
      simp only [Except.ok.injEq] at h
      rw [← h]
      simp [dir_ne_nil]

/-! ## The construction of a manifest -/

/-- C11: for every successful `NewManifest(pth, hashName)`, with an ASCII
`hashName`: when `pth` contains `manifest-`, `Name()` is `pth` cleaned, and
otherwise it is the cleaned join of `pth` with `manifest-`, the lower-case
`hashName` and `.txt`. -/
theorem newManifest_name {H : Type} (Stat : GoString → StatResult)
    (LookupHash : GoString → Except GoString H) (pth hashName : GoString) (m : Manifest)
    (_hascii : ∀ c ∈ hashName, c < 128)
    (h : NewManifest Stat LookupHash pth hashName = .ok m) :
    m.Name = if strings.Contains pth (str "manifest-") = true then filepath.Clean pth
      else filepath.Clean
        (filepath.Join [pth, str "manifest-" ++ strings.ToLower hashName ++ str ".txt"]) := by
  rw [Manifest.Name, newManifest_ok Stat LookupHash pth hashName m h]
  split_ifs <;> rfl

/-- C11 at the directory `/tmp` and the algorithm `SHA1`: the name is
`/tmp/manifest-sha1.txt`. -/
theorem newManifest_name_witness :
    (∀ c ∈ str "SHA1", c < 128) ∧
      NewManifest allThere fourHashes (str "/tmp") (str "SHA1") =
        .ok ⟨str "/tmp/manifest-sha1.txt", GoMap.empty⟩ ∧
      Manifest.Name ⟨str "/tmp/manifest-sha1.txt", GoMap.empty⟩ = str "/tmp/manifest-sha1.txt" ∧
      Manifest.Name ⟨str "/tmp/manifest-sha1.txt", GoMap.empty⟩ =
        if strings.Contains (str "/tmp") (str "manifest-") = true then filepath.Clean (str "/tmp")
        else filepath.Clean
          (filepath.Join [str "/tmp", str "manifest-" ++ strings.ToLower (str "SHA1") ++ str ".txt"]) :=
  ⟨by decide, rfl, by decide,
    newManifest_name allThere fourHashes (str "/tmp") (str "SHA1")
      ⟨str "/tmp/manifest-sha1.txt", GoMap.empty⟩ (by decide) rfl⟩

/-- C12 (amended): for every path whose parent directory, `filepath.Dir(pth)`,
does not exist, and every algorithm name, `NewManifest` returns an error and no
manifest. -/
theorem newManifest_missing_parent {H : Type} (Stat : GoString → StatResult)
    (LookupHash : GoString → Except GoString H) (pth hashName e : GoString)
    (h : Stat (filepath.Dir pth) = .notExist e) :
    NewManifest Stat LookupHash pth hashName =
      .error (str "Unable to create manifest. Path does not exist: " ++ pth) := by
  unfold NewManifest
  rw [h]

/-- C12 (amended) at a path below a directory that is not there. -/
theorem newManifest_missing_parent_witness :
    onlyTmp (filepath.Dir (str "/tmp/missing/bag")) =
        .notExist (str "no such file or directory") ∧
      NewManifest onlyTmp fourHashes (str "/tmp/missing/bag") (str "sha1") =
        .error (str "Unable to create manifest. Path does not exist: " ++ str "/tmp/missing/bag") :=
  ⟨by decide,
    newManifest_missing_parent onlyTmp fourHashes (str "/tmp/missing/bag") (str "sha1")
      (str "no such file or directory") (by decide)⟩

/-- C12 as stated fails: `NewManifest` asks `os.Stat` for the parent of `pth`.
With `/tmp` there and `/tmp/missing` not, `NewManifest("/tmp/missing", "sha1")`
returns a manifest, named `/tmp/missing/manifest-sha1.txt`, and no error. -/
theorem newManifest_missing_target :
    onlyTmp (str "/tmp/missing") = .notExist (str "no such file or directory") ∧
      onlyTmp (filepath.Dir (str "/tmp/missing")) = .ok ∧
      NewManifest onlyTmp fourHashes (str "/tmp/missing") (str "sha1") =
        .ok ⟨str "/tmp/missing/manifest-sha1.txt", GoMap.empty⟩ :=
  ⟨by decide, by decide, rfl⟩


/-- The errors of `RunChecksums` after some entries: those before, then one
for each checksum that differs and one for each hashing that failed. -/
theorem runChecksums_fold (FileChecksum : GoString → GoString × Option GoString)
    (name : GoString) (es : List (GoString × GoString)) (acc : List GoString) :
    (es.foldl (fun invalidSums e =>
      let pth := filepath.Join [filepath.Dir name, e.1]
      let r := FileChecksum pth
      let invalidSums :=
        if e.2 ≠ r.1 then invalidSums ++ [checksumError e.2 e.1 r.1] else invalidSums
      match r.2 with
      | some err => invalidSums ++ [err]
      | none => invalidSums) acc).length =
    acc.length +
      es.countP (fun e => decide (e.2 ≠ (FileChecksum (filepath.Join [filepath.Dir name, e.1])).1)) +
      es.countP (fun e => (FileChecksum (filepath.Join [filepath.Dir name, e.1])).2.isSome) := by
  induction es generalizing acc with
  | nil => simp
  | cons e es ih =>
    rw [List.foldl_cons, ih, List.countP_cons, List.countP_cons]
    by_cases h1 : e.2 = (FileChecksum (filepath.Join [filepath.Dir name, e.1])).1 <;>
      cases h2 : (FileChecksum (filepath.Join [filepath.Dir name, e.1])).2 <;>
      simp [h1, h2] <;> omega

/-! ## The verification of a manifest -/

/-- C13: `RunChecksums` goes through all entries: the number of errors it
returns is the number of entries whose recorded checksum differs from the
digest the hashing returns plus the number of entries whose hashing failed;
the list is empty exactly when every entry matches and no hashing fails. -/
theorem runChecksums_count (FileChecksum : GoString → GoString × Option GoString)
    (m : Manifest) :
    (m.RunChecksums FileChecksum).length =
        m.Data.entries.countP (fun e =>
          decide (e.2 ≠ (FileChecksum (filepath.Join [filepath.Dir m.name, e.1])).1)) +
        m.Data.entries.countP (fun e =>
          (FileChecksum (filepath.Join [filepath.Dir m.name, e.1])).2.isSome) ∧
      (m.RunChecksums FileChecksum = [] ↔
        ∀ e ∈ m.Data.entries,
          e.2 = (FileChecksum (filepath.Join [filepath.Dir m.name, e.1])).1 ∧
          (FileChecksum (filepath.Join [filepath.Dir m.name, e.1])).2 = none) := by
  have hfold := runChecksums_fold FileChecksum m.name m.Data.entries []
  rw [List.length_nil, Nat.zero_add] at hfold
  have hlen : (m.RunChecksums FileChecksum).length =
      m.Data.entries.countP (fun e =>
        decide (e.2 ≠ (FileChecksum (filepath.Join [filepath.Dir m.name, e.1])).1)) +
      m.Data.entries.countP (fun e =>
        (FileChecksum (filepath.Join [filepath.Dir m.name, e.1])).2.isSome) := hfold
  refine ⟨hlen, ?_⟩
  rw [← List.length_eq_zero, hlen, Nat.add_eq_zero_iff, List.countP_eq_zero,
    List.countP_eq_zero]
  constructor
  · rintro ⟨h1, h2⟩ e he
    have a := h1 e he
    have b := h2 e he
    simp only [ne_eq, decide_not, Bool.not_eq_true', decide_eq_false_iff_not, not_not] at a
    exact ⟨a, by simpa using b⟩
  · intro h
    exact ⟨fun e he => by simp [(h e he).1], fun e he => by simp [(h e he).2]⟩

/-- C14: for a manifest of one entry whose file is read without error,
`RunChecksums` returns no error when the recorded checksum is the digest, and
otherwise exactly one error, whose message contains the recorded checksum, the
path of the entry and the digest. -/
theorem runChecksums_single (FileChecksum : GoString → GoString × Option GoString)
    (m : Manifest) (key sum digest : GoString) (hone : m.Data.entries = [(key, sum)])
    (hread : FileChecksum (filepath.Join [filepath.Dir m.name, key]) = (digest, none)) :
    (sum = digest → m.RunChecksums FileChecksum = []) ∧
      (sum ≠ digest → m.RunChecksums FileChecksum = [checksumError sum key digest]) ∧
      sum <:+: checksumError sum key digest ∧ key <:+: checksumError sum key digest ∧
      digest <:+: checksumError sum key digest := by
  refine ⟨fun h => ?_, fun h => ?_, ?_, ?_, ?_⟩
  · simp [Manifest.RunChecksums, hone, hread, h]
  · simp [Manifest.RunChecksums, hone, hread, h]
  · exact ⟨str "File checksum ", str " is not valid for " ++ key ++ str ":" ++ digest, by
      simp [checksumError]⟩
  · exact ⟨str "File checksum " ++ sum ++ str " is not valid for ", str ":" ++ digest, by
      simp [checksumError]⟩
  · exact ⟨str "File checksum " ++ sum ++ str " is not valid for " ++ key ++ str ":", [], by
      simp [checksumError]⟩

/-- C14 at the manifest of the test, after its checksum is changed. -/
theorem runChecksums_single_witness :
    (Manifest.mk (str "/tmp/manifest-sha1.txt")
        (GoMap.ofList [(str "_GOTEST_1", str "frodo lives!")])).Data.entries =
      [(str "_GOTEST_1", str "frodo lives!")] ∧
    (fun _ => (str "da909ba395016f2a64b04d706520db6afa74fc95", (none : Option GoString)))
        (filepath.Join [filepath.Dir (str "/tmp/manifest-sha1.txt"), str "_GOTEST_1"]) =
      (str "da909ba395016f2a64b04d706520db6afa74fc95", none) ∧
    Manifest.RunChecksums
        (fun _ => (str "da909ba395016f2a64b04d706520db6afa74fc95", (none : Option GoString)))
        (Manifest.mk (str "/tmp/manifest-sha1.txt")
          (GoMap.ofList [(str "_GOTEST_1", str "frodo lives!")])) =
      [str ("File checksum frodo lives! is not valid for " ++
        "_GOTEST_1:da909ba395016f2a64b04d706520db6afa74fc95")] :=
  ⟨by decide, rfl,
    ((runChecksums_single
      (fun _ => (str "da909ba395016f2a64b04d706520db6afa74fc95", (none : Option GoString)))
      (Manifest.mk (str "/tmp/manifest-sha1.txt")
        (GoMap.ofList [(str "_GOTEST_1", str "frodo lives!")]))
      (str "_GOTEST_1") (str "frodo lives!") (str "da909ba395016f2a64b04d706520db6afa74fc95")
      (by decide) rfl).2.1 (by decide)).trans (by decide)⟩


/-- The algorithm token of a one-line base name `pre-token.txt` whose token has
no hyphen. -/
theorem parseAlgoName_of_shape (name pre token : GoString)
    (hbase : filepath.Base name = pre ++ str "-" ++ token ++ str ".txt")
    (hnl : ch '\n' ∉ filepath.Base name) (htok : ch '-' ∉ token) :
    parseAlgoName name = .ok token := by
  have h45 : str "-" = [45] := by decide
  have h10 : ch '\n' = 10 := by decide
  rw [hbase, h45, h10] at hnl
  rw [ch_minus] at htok
  obtain ⟨l, hl⟩ := algoNameRe_run pre token
    (fun c hc h => hnl (by rw [h] at hc; simp [hc]))
    (fun c hc => ⟨fun h => hnl (by rw [h] at hc; simp [hc]), fun h => htok (by rw [h] at hc; exact hc)⟩)
  have hs := search_of_run _ _ _ _ _ hl
  have hn : algoNameRe.numSubexp = 3 := by decide
  have htext : pre ++ str "-" ++ token ++ str ".txt" = pre ++ 45 :: (token ++ str ".txt") := by
    simp [h45]
  unfold parseAlgoName
  rw [hbase, htext]
  simp [Regex.FindStringSubmatch, hs, hn, List.range_succ, capture]

/-- The function `NewManifest` returns an error for a name the registry does not
know, whatever the file system answers. -/
theorem newManifest_unknown {H : Type} (Stat : GoString → StatResult)
    (LookupHash : GoString → Except GoString H) (pth hashName e : GoString)
    (h : LookupHash hashName = .error e) :
    ∃ err, NewManifest Stat LookupHash pth hashName = .error err := by
  unfold NewManifest
  cases Stat (filepath.Dir pth) with
  | notExist x => exact ⟨_, rfl⟩
  | failed x => exact ⟨_, rfl⟩
  | ok => exact ⟨e, by simp only [h]⟩

/-! ## Reading a manifest and constructing a tag file -/

/-- C15 fails on the code: `.*\.txt` is searched in the base name, not matched
against all of it. In a directory that is there, `NewTagFile` returns a nil
error for `notes.txt.bak`, which does not end in `.txt`, and for `.txt`, which
has nothing before the extension; a name without `.txt` gets the error. -/
theorem newTagFile_unanchored :
    (NewTagFile allThere (str "tags/notes.txt.bak")).2 = none ∧
      (NewTagFile allThere (str "tags/.txt")).2 = none ∧
      (NewTagFile allThere (str "tags/notes")).2 =
        some (str "Tagfiles must end in .txt and contain at least 1 letter.  Provided: notes") := by
  decide

/-- C16: for every manifest file that is opened and read, with a name of the
shape `pre-token.txt` whose token the hash registry does not know,
`ReadManifest` returns no manifest and a list of exactly one error. -/
theorem readManifest_unknown_hash {H : Type} (Stat : GoString → StatResult)
    (LookupHash : GoString → Except GoString H) (Open : GoString → Except GoString GoString)
    (name pre token content e : GoString)
    (hbase : filepath.Base name = pre ++ str "-" ++ token ++ str ".txt")
    (hnl : ch '\n' ∉ filepath.Base name) (htok : ch '-' ∉ token)
    (hopen : Open name = .ok content) (hunknown : LookupHash token = .error e) :
    ∃ err, ReadManifest Stat LookupHash Open name = (none, [err]) := by
  obtain ⟨err, herr⟩ := newManifest_unknown Stat LookupHash name token e hunknown
  refine ⟨err, ?_⟩
  unfold ReadManifest
  rw [parseAlgoName_of_shape name pre token hbase hnl htok]
  simp only [hopen, herr, parseManifestData_eq]
  rfl

/-- C16 at the file of the test, an empty file named for `sha156`. -/
theorem readManifest_unknown_hash_witness :
    filepath.Base (str "/tmp/__GOTEST__BADMANIFEST_manifest-sha156.txt") =
        str "__GOTEST__BADMANIFEST_manifest" ++ str "-" ++ str "sha156" ++ str ".txt" ∧
      ch '\n' ∉ filepath.Base (str "/tmp/__GOTEST__BADMANIFEST_manifest-sha156.txt") ∧
      ch '-' ∉ str "sha156" ∧
      (fun _ => (Except.ok [] : Except GoString GoString))
        (str "/tmp/__GOTEST__BADMANIFEST_manifest-sha156.txt") = .ok [] ∧
      fourHashes (str "sha156") = .error (str "Unsupported hash value: sha156") ∧
      ∃ err, ReadManifest allThere fourHashes (fun _ => .ok [])
        (str "/tmp/__GOTEST__BADMANIFEST_manifest-sha156.txt") = (none, [err]) :=
  ⟨by decide, by decide, by decide, rfl, by decide,
    readManifest_unknown_hash allThere fourHashes (fun _ => .ok [])
      (str "/tmp/__GOTEST__BADMANIFEST_manifest-sha156.txt")
      (str "__GOTEST__BADMANIFEST_manifest") (str "sha156") []
      (str "Unsupported hash value: sha156") (by decide) (by decide) (by decide) rfl
      (by decide)⟩


/-- The bindings of a map are its entries. -/
theorem get?_eq_some_iff (m : GoMap) (k v : GoString) :
    m.get? k = some v ↔ (k, v) ∈ m.entries := by
  constructor
  · intro h
    simp only [GoMap.get?, Option.map_eq_some'] at h
    obtain ⟨x, hx, hv⟩ := h
    have hx1 : x.1 = k := by simpa using List.find?_some hx
    have : (k, v) = x := by rw [← hx1, ← hv]
    rw [this]
    exact List.mem_of_find?_eq_some hx
  · intro h
    have h1 := get?_of_mem m k (List.mem_map.2 ⟨(k, v), h, rfl⟩)
    rw [h1, get_of_mem_entries m (k, v) h]

/-- Maps with the same bindings have the same entries, up to their order. -/
theorem entries_perm_of_same (a b : GoMap) (h : a.Same b) : a.entries.Perm b.entries := by
  rw [List.perm_ext_iff_of_nodup (List.Nodup.of_map _ a.nodup) (List.Nodup.of_map _ b.nodup)]
  intro e
  rw [← get?_eq_some_iff a e.1 e.2, ← get?_eq_some_iff b e.1 e.2, h e.1]

/-- C17: for every manifest in which each checksum has no whitespace byte,
each path has no line feed, does not begin with a whitespace byte and does not
end with a carriage return, and each rendered line, its line feed included, is
within the 64 KiB of the scanner, `ParseManifestData` applied to `ToString`
returns exactly the mapping of the manifest and an empty error list. -/
theorem roundtrip_conditional (m : Manifest)
    (h : ∀ e ∈ m.Data.entries, (∀ c ∈ e.2, isSpace c = false) ∧ ch '\n' ∉ e.1 ∧
      (∀ c ∈ e.1.head?, isSpace c = false) ∧ e.1.getLast? ≠ some (ch '\r') ∧
      (e.2 ++ str " " ++ e.1 ++ str "\n").length ≤ MaxScanTokenSize) :
    (ParseManifestData m.ToString).2 = [] ∧
      (ParseManifestData m.ToString).1.entries.Perm m.Data.entries ∧
      ∀ k, (ParseManifestData m.ToString).1.get? k = m.Data.get? k := by
  have hlf : (str "\n").length = 1 := by decide
  have hcore := roundtrip_core m (fun e he => by
    obtain ⟨h1, h2, h3, h4, h5⟩ := h e he
    refine ⟨h1, h2, h3, h4, ?_⟩
    rw [List.length_append, hlf] at h5
    omega)
  exact ⟨hcore.1, entries_perm_of_same _ _ hcore.2, hcore.2⟩

/-- C17 at two entries of the kind the test writes. -/
theorem roundtrip_conditional_witness :
    (∀ e ∈ (GoMap.ofList [(str "data/testfilename_1.txt", str "327b23c6"),
        (str "data/testfilename_0.txt", str "6b8b4567")]).entries,
      (∀ c ∈ e.2, isSpace c = false) ∧ ch '\n' ∉ e.1 ∧
      (∀ c ∈ e.1.head?, isSpace c = false) ∧ e.1.getLast? ≠ some (ch '\r') ∧
      (e.2 ++ str " " ++ e.1 ++ str "\n").length ≤ MaxScanTokenSize) ∧
    Manifest.ToString ⟨str "/tmp/manifest-md5.txt",
        GoMap.ofList [(str "data/testfilename_1.txt", str "327b23c6"),
          (str "data/testfilename_0.txt", str "6b8b4567")]⟩ =
      str "6b8b4567 data/testfilename_0.txt\n327b23c6 data/testfilename_1.txt\n" ∧
    (ParseManifestData (Manifest.ToString ⟨str "/tmp/manifest-md5.txt",
        GoMap.ofList [(str "data/testfilename_1.txt", str "327b23c6"),
          (str "data/testfilename_0.txt", str "6b8b4567")]⟩)).2 = [] ∧
    (ParseManifestData (Manifest.ToString ⟨str "/tmp/manifest-md5.txt",
        GoMap.ofList [(str "data/testfilename_1.txt", str "327b23c6"),
          (str "data/testfilename_0.txt", str "6b8b4567")]⟩)).1.entries.Perm
      (GoMap.ofList [(str "data/testfilename_1.txt", str "327b23c6"),
        (str "data/testfilename_0.txt", str "6b8b4567")]).entries :=
  ⟨by decide, by decide,
    (roundtrip_conditional ⟨str "/tmp/manifest-md5.txt",
      GoMap.ofList [(str "data/testfilename_1.txt", str "327b23c6"),
        (str "data/testfilename_0.txt", str "6b8b4567")]⟩ (by decide)).1,
    (roundtrip_conditional ⟨str "/tmp/manifest-md5.txt",
      GoMap.ofList [(str "data/testfilename_1.txt", str "327b23c6"),
        (str "data/testfilename_0.txt", str "6b8b4567")]⟩ (by decide)).2.1⟩

/-! ### The words of a field -/

theorem formatFold_body (ws : List GoString) (b : GoString) (c : Nat) :
    (ws.foldl formatStep (b, c)).1 = b ++ formatBody c ws := by
  induction ws generalizing b c with
  | nil => simp [formatBody]
  | cons w ws ih =>
    rw [List.foldl_cons, formatBody]
    by_cases hb : c + w.length > 79
    · rw [formatStep_break (b, c) w hb, ih, if_pos hb]
      simp
    · rw [formatStep_keep (b, c) w hb, ih, if_neg hb]
      simp

theorem removeBreaks_append (a b : GoString) (ha : 10 ∉ a) :
    removeBreaks (a ++ b) = a ++ removeBreaks b := by
  induction a with
  | nil => rfl
  | cons c a ih =>
    have hc : c ≠ 10 := fun e => ha (by simp [e])
    have := ih (fun e => ha (List.mem_cons_of_mem _ e))
    rw [List.cons_append, removeBreaks, this, List.cons_append]
    intro rest h
    exact absurd h hc

theorem removeBreaks_body (ws : List GoString) (c : Nat) (h : ∀ w ∈ ws, 10 ∉ w) :
    removeBreaks (formatBody c ws) = ws.flatMap (fun w => 32 :: w) := by
  induction ws generalizing c with
  | nil => rfl
  | cons w ws ih =>
    have hw : (10 : Nat) ∉ 32 :: w := by
      simp [h w (List.mem_cons_self _ _)]
    have hws := fun c => ih c (fun x hx => h x (List.mem_cons_of_mem _ hx))
    rw [formatBody]
    split_ifs
    · show removeBreaks (10 :: 32 :: 32 :: 32 :: (32 :: w ++ formatBody _ ws)) = _
      rw [removeBreaks, removeBreaks_append _ _ hw, hws]
      simp
    · rw [removeBreaks_append _ _ hw, hws]
      simp

/-- C18: for every key and value without line feed, `FormatField` without its
breaks is the key, then `": "`, then each word of the value between its spaces,
in the order of the value, each after a single space. -/
theorem formatField_words (key data : GoString) (hk : ch '\n' ∉ key) (hd : ch '\n' ∉ data) :
    removeBreaks (FormatField key data) =
      key ++ str ": " ++ (strings.Split data (ch ' ')).flatMap (fun w => str " " ++ w) := by
  have h10 : ch '\n' = 10 := by decide
  have hcs : str ": " = [58, 32] := by decide
  have hsp : str " " = [32] := by decide
  rw [h10] at hk hd
  have hpre : (10 : Nat) ∉ key ++ str ": " := by simp [hcs, hk]
  rw [formatField_eq, formatFold_body, removeBreaks_append _ _ hpre, removeBreaks_body _ _
    (fun w hw h => hd ((mem_split _ _ _ hw).2 _ h))]
  simp [hsp]

/-- C18 at a value whose second word, of 80 bytes, is longer than a line: the
word is written whole after a break. -/
theorem formatField_words_witness :
    ch '\n' ∉ str "Source" ∧ ch '\n' ∉ str "x " ++ List.replicate 80 (ch 'y') ∧
      FormatField (str "Source") (str "x " ++ List.replicate 80 (ch 'y')) =
        str "Source:  x\n    " ++ List.replicate 80 (ch 'y') ∧
      removeBreaks (FormatField (str "Source") (str "x " ++ List.replicate 80 (ch 'y'))) =
        str "Source" ++ str ": " ++
          (strings.Split (str "x " ++ List.replicate 80 (ch 'y')) (ch ' ')).flatMap
            (fun w => str " " ++ w) :=
  ⟨by decide, by decide, by decide,
    formatField_words (str "Source") (str "x " ++ List.replicate 80 (ch 'y'))
      (by decide) (by decide)⟩


/-- A key that is bound stays bound when lines are read into the map. -/
theorem get?_foldl_keep (lines : List GoString) (m : GoMap) (k : GoString)
    (h : m.get? k ≠ none) :
    (lines.foldl (fun m line => m.set (linePath line) (lineChecksum line)) m).get? k ≠ none := by
  induction lines generalizing m with
  | nil => exact h
  | cons line lines ih =>
    rw [List.foldl_cons]
    apply ih
    by_cases hk : k = linePath line
    · rw [hk, get?_set_self]; simp
    · rw [get?_set_ne _ _ _ _ hk]; exact h

/-- The path of every line that is read is bound in the map. -/
theorem get?_foldl_line (lines : List GoString) (m : GoMap) (line : GoString)
    (h : line ∈ lines) :
    (lines.foldl (fun m line => m.set (linePath line) (lineChecksum line)) m).get?
      (linePath line) ≠ none := by
  induction lines generalizing m with
  | nil => simp at h
  | cons l lines ih =>
    rw [List.foldl_cons]
    rcases List.mem_cons.1 h with e | hl
    · apply get?_foldl_keep
      rw [e, get?_set_self]; simp
    · exact ih _ hl

/-- The path of every line the scanner returns is a key of the map read. -/
theorem parse_line_key (file line : GoString) (h : line ∈ scanLines file) :
    linePath line ∈ (parseManifestData file).1.keys := by
  by_contra hk
  have h1 := get?_of_not_mem _ _ hk
  rw [parseManifestData_eq] at h1
  exact get?_foldl_line (scanLines file) GoMap.empty line h h1

/-- The path of a line of whitespace is empty. -/
theorem linePath_blank (l : GoString) (h : ∀ c ∈ l, isSpace c = true) : linePath l = [] := by
  have h1 : l.dropWhile notSpace = l := by
    cases l with
    | nil => rfl
    | cons c cs =>
      have := h c (List.mem_cons_self _ _)
      simp [List.dropWhile_cons, notSpace, this]
  have h2 : l.dropWhile isSpace = [] := by
    rw [List.dropWhile_eq_nil_iff]
    exact h
  rw [linePath, h1, h2]
  rfl

theorem dropCR_subset (l : GoString) : ∀ c ∈ dropCR l, c ∈ l := by
  intro c hc
  unfold dropCR at hc
  split_ifs at hc
  · exact List.mem_of_mem_dropLast hc
  · exact hc

/-- The scanner returns a line that is shorter than its buffer, as are the
lines before it. -/
theorem mem_scanLines (file : GoString) (before after : List GoString) (l : GoString)
    (hsplit : rawLines file = before ++ l :: after)
    (hbefore : ∀ x ∈ before, x.length < MaxScanTokenSize) (hl : l.length < MaxScanTokenSize) :
    dropCR l ∈ scanLines file := by
  rw [scanLines, hsplit]
  apply List.mem_map_of_mem
  have : (before ++ l :: after).takeWhile (fun x => decide (x.length < MaxScanTokenSize)) =
      before ++ (l :: after).takeWhile (fun x => decide (x.length < MaxScanTokenSize)) := by
    clear hsplit
    induction before with
    | nil => rfl
    | cons b bs ih =>
      have hb := hbefore b (List.mem_cons_self _ _)
      rw [List.cons_append, List.takeWhile_cons, if_pos (by simpa using hb),
        ih (fun x hx => hbefore x (List.mem_cons_of_mem _ hx))]
      rfl
  rw [this, List.takeWhile_cons, if_pos (by simpa using hl)]
  simp

/-- The scanner returns nothing when the first line does not fit its buffer. -/
theorem parse_long_first_line (n : Nat) (hn : MaxScanTokenSize ≤ n) (rest : GoString) :
    (parseManifestData (List.replicate n (ch 'a') ++ 10 :: rest)).1.entries = [] := by
  have hnl : 10 ∉ List.replicate n (ch 'a') := by
    have h1 : ch 'a' ≠ 10 := by decide
    exact fun h => h1 (List.eq_of_mem_replicate h).symm
  have hlen : ¬ (List.replicate n (ch 'a')).length < MaxScanTokenSize := by
    rw [List.length_replicate]
    omega
  rw [parseManifestData_eq, scanLines, rawLines_append_lf _ _ hnl, List.takeWhile_cons,
    if_neg (by simpa using hlen)]
  rfl

/-! ## Lines that are not records -/

/-- C19: for every input text `ParseManifestData` returns an empty error list:
the pattern `^(\S*)\s*(.*)` matches every line, and every line the scanner
returns gives an entry, the binding of its path. -/
theorem parse_never_errs (file : GoString) :
    (ParseManifestData file).2 = [] ∧ (∀ line, manifestLineRe.MatchString line = true) ∧
      ∀ line ∈ scanLines file, ∃ v, (ParseManifestData file).1.get? (linePath line) = some v := by
  refine ⟨?_, fun line => (manifestLineRe_find line).1, fun line hl => ?_⟩
  · rw [ParseManifestData, parseManifestData_eq]
  · have hk := parse_line_key file line hl
    exact ⟨_, get?_of_mem _ _ hk⟩

/-- C20 (amended): for every input text with an empty or whitespace-only line
that the scanner reaches, the line and the lines before it being shorter than
64 KiB, the mapping `ParseManifestData` returns has the empty string as a key;
and the text of a single empty line gives exactly the mapping from the empty
path to the empty checksum, with no error. -/
theorem parse_blank_line (file : GoString) (before after : List GoString) (l : GoString)
    (hsplit : rawLines file = before ++ l :: after)
    (hbefore : ∀ x ∈ before, x.length < MaxScanTokenSize) (hl : l.length < MaxScanTokenSize)
    (hblank : ∀ c ∈ l, isSpace c = true) :
    [] ∈ (ParseManifestData file).1.keys ∧
      (ParseManifestData (str "\n")).1.entries = [([], [])] ∧
      (ParseManifestData (str "\n")).2 = [] := by
  refine ⟨?_, by decide, by decide⟩
  have h1 := parse_line_key file (dropCR l) (mem_scanLines file before after l hsplit hbefore hl)
  rwa [linePath_blank (dropCR l) (fun c hc => hblank c (dropCR_subset l c hc))] at h1

/-- C20 (amended) at a text with a line of spaces between two records. -/
theorem parse_blank_line_witness :
    rawLines (str "ab cd\n  \nef gh\n") = [str "ab cd"] ++ str "  " :: [str "ef gh"] ∧
      (∀ x ∈ [str "ab cd"], x.length < MaxScanTokenSize) ∧
      (str "  ").length < MaxScanTokenSize ∧ (∀ c ∈ str "  ", isSpace c = true) ∧
      [] ∈ (ParseManifestData (str "ab cd\n  \nef gh\n")).1.keys :=
  ⟨by decide, by decide, by decide, by decide,
    (parse_blank_line (str "ab cd\n  \nef gh\n") [str "ab cd"] [str "ef gh"] (str "  ")
      (by decide) (by decide) (by decide) (by decide)).1⟩

/-- C20 as stated fails: the scanner gives up at a first line of 64 KiB, and
the empty line after it is not read: the mapping has no key at all. -/
theorem parse_blank_line_unread :
    rawLines (List.replicate 65536 (ch 'a') ++ 10 :: [10]) =
        [List.replicate 65536 (ch 'a'), []] ∧
      (ParseManifestData (List.replicate 65536 (ch 'a') ++ 10 :: [10])).1.keys = [] := by
  have hnl : 10 ∉ List.replicate 65536 (ch 'a') := by
    have h1 : ch 'a' ≠ 10 := by decide
    exact fun h => h1 (List.eq_of_mem_replicate h).symm
  refine ⟨?_, ?_⟩
  · rw [rawLines_append_lf _ _ hnl]
    rfl
  · rw [ParseManifestData, GoMap.keys, parse_long_first_line 65536 (by decide)]
    rfl

end Bagins
